import Mathlib

/-!
Verification of the user-attribute pipeline of the `yelp_expert_finding`
repository.

The development shallowly embeds the record-transformation layer
(`utilities.py`) and the attribute I/O layer (`data/data_utilities.py`).

Modelling conventions, stated once here:
* A Python dictionary is modelled as an association list (`PyDict`).
  Assignment `d[k] = v` updates the first binding of `k` in place and
  otherwise appends.  Lookup, membership, key-set and entry-count behaviour
  agree exactly with a Python dict.  The LIST ORDER of the entries, however,
  is only a concrete refinement: the repository is Python 2, whose dict
  iteration order is unspecified (CPython 2 iterates in hash order, not
  insertion order).  Therefore every theorem below about data that flows
  through a dict iteration (the output list of `join_dictionaries`) states
  only order-invariant properties — length, membership, permutation — never
  the position of an element.
* Fallible Python code (`KeyError`, `IndexError`, `ValueError`,
  `ZeroDivisionError`, `IOError`, calling a method on `None`) is modelled
  with `Option`: `none` means the original raises.
* Numeric attribute values are modelled as exact rationals (`ℚ`);
  file tokens and file lines are lists of characters.
* The filesystem is a `PyDict` from path to file content (a list of lines,
  written without their trailing newline character).
-/

/-- A Python dict, as an insertion-ordered association list. -/
abbrev PyDict (κ β : Type) := List (κ × β)

/-- A user record: a Python dict from attribute name to value. -/
abbrev URec (α : Type) := PyDict String α

/-- Python `d[k]` (first binding wins; `none` models `KeyError`). -/
def dictLookup {κ β : Type} [DecidableEq κ] (k : κ) : PyDict κ β → Option β
  | [] => none
  | p :: rest => if p.1 = k then some p.2 else dictLookup k rest

/-- Python `d[k] = v`: update the first binding of `k` in place, else append. -/
def insertPair {κ β : Type} [DecidableEq κ] (m : PyDict κ β) (k : κ) (v : β) : PyDict κ β :=
  match m with
  | [] => [(k, v)]
  | p :: rest => if p.1 = k then (p.1, v) :: rest else p :: insertPair rest k v

/-- The last element of a list satisfying `p`, if any. -/
def lastWith {γ : Type} (p : γ → Prop) [DecidablePred p] : List γ → Option γ
  | [] => none
  | x :: xs =>
    match lastWith p xs with
    | some y => some y
    | none => if p x then some x else none

/-- Key sequence of a dict after inserting the values `vs` in order
(first occurrence keeps its position, duplicates are dropped). -/
def keysAfter {γ : Type} [DecidableEq γ] : List γ → List γ → List γ
  | ks, [] => ks
  | ks, v :: vs => keysAfter (if v ∈ ks then ks else ks ++ [v]) vs

theorem dictLookup_insertPair {κ β : Type} [DecidableEq κ] (m : PyDict κ β) (k k2 : κ) (v : β) :
    dictLookup k2 (insertPair m k v) = if k2 = k then some v else dictLookup k2 m := by
  induction m with
  | nil =>
    by_cases h : k2 = k
    · subst h; simp [insertPair, dictLookup]
    · have h2 : ¬ k = k2 := fun hh => h hh.symm
      simp [insertPair, dictLookup, h, h2]
  | cons p rest ih =>
    by_cases hp : p.1 = k
    · subst hp
      by_cases h : k2 = p.1
      · subst h; simp [insertPair, dictLookup]
      · have h2 : ¬ p.1 = k2 := fun hh => h hh.symm
        simp [insertPair, dictLookup, h, h2]
    · by_cases h : p.1 = k2
      · subst h
        simp [insertPair, dictLookup, hp]
      · simp [insertPair, dictLookup, hp, h, ih]

theorem map_fst_insertPair {κ β : Type} [DecidableEq κ] (m : PyDict κ β) (k : κ) (v : β) :
    (insertPair m k v).map Prod.fst =
      if k ∈ m.map Prod.fst then m.map Prod.fst else m.map Prod.fst ++ [k] := by
  induction m with
  | nil => simp [insertPair]
  | cons p rest ih =>
    by_cases hp : p.1 = k
    · subst hp; simp [insertPair]
    · have : ¬ k = p.1 := fun hh => hp hh.symm
      by_cases hk : k ∈ rest.map Prod.fst
      · simp [insertPair, hp, ih, hk, this]
      · simp [insertPair, hp, ih, hk, this]

theorem insertPair_of_not_mem {κ β : Type} [DecidableEq κ] (m : PyDict κ β) (k : κ) (v : β)
    (h : k ∉ m.map Prod.fst) : insertPair m k v = m ++ [(k, v)] := by
  induction m with
  | nil => simp [insertPair]
  | cons p rest ih =>
    simp only [List.map_cons, List.mem_cons] at h
    push_neg at h
    have hp : ¬ p.1 = k := fun hh => h.1 hh.symm
    simp [insertPair, hp, ih h.2]

theorem dictLookup_eq_none_iff {κ β : Type} [DecidableEq κ] (m : PyDict κ β) (k : κ) :
    dictLookup k m = none ↔ k ∉ m.map Prod.fst := by
  induction m with
  | nil => simp [dictLookup]
  | cons p rest ih =>
    by_cases hp : p.1 = k
    · subst hp; simp [dictLookup]
    · have : ¬ k = p.1 := fun hh => hp hh.symm
      simp [dictLookup, hp, ih, this]

theorem dictLookup_mem {κ β : Type} [DecidableEq κ] {m : PyDict κ β} {k : κ} {v : β}
    (h : dictLookup k m = some v) : (k, v) ∈ m := by
  induction m with
  | nil => simp [dictLookup] at h
  | cons p rest ih =>
    by_cases hp : p.1 = k
    · subst hp
      simp [dictLookup] at h
      cases p with
      | mk a b =>
        simp at h
        subst h
        exact List.mem_cons_self _ _
    · simp [dictLookup, hp] at h
      exact List.mem_cons_of_mem _ (ih h)

theorem lastWith_mem {γ : Type} (p : γ → Prop) [DecidablePred p] {l : List γ} {x : γ}
    (h : lastWith p l = some x) : x ∈ l ∧ p x := by
  induction l with
  | nil => simp [lastWith] at h
  | cons y ys ih =>
    simp only [lastWith] at h
    cases hy : lastWith p ys with
    | some z =>
      rw [hy] at h
      simp at h
      subst h
      exact ⟨List.mem_cons_of_mem _ (ih hy).1, (ih hy).2⟩
    | none =>
      rw [hy] at h
      by_cases hp : p y
      · simp [hp] at h
        subst h
        exact ⟨List.mem_cons_self _ _, hp⟩
      · simp [hp] at h

theorem lastWith_isSome {γ : Type} (p : γ → Prop) [DecidablePred p] {l : List γ} {x : γ}
    (hx : x ∈ l) (hp : p x) : (lastWith p l).isSome := by
  induction l with
  | nil => simp at hx
  | cons y ys ih =>
    simp only [lastWith]
    cases hy : lastWith p ys with
    | some z => simp
    | none =>
      rcases List.mem_cons.mp hx with h | h
      · subst h; simp [hp]
      · have := ih h
        rw [hy] at this
        simp at this

theorem lastWith_congr {γ : Type} (p q : γ → Prop) [DecidablePred p] [DecidablePred q]
    (l : List γ) (h : ∀ x ∈ l, p x ↔ q x) : lastWith p l = lastWith q l := by
  induction l with
  | nil => rfl
  | cons y ys ih =>
    simp only [lastWith]
    rw [ih (fun x hx => h x (List.mem_cons_of_mem _ hx))]
    cases lastWith q ys with
    | some z => rfl
    | none =>
      by_cases hy : p y
      · simp [hy, (h y (List.mem_cons_self _ _)).mp hy]
      · have hq : ¬ q y := fun hh => hy ((h y (List.mem_cons_self _ _)).mpr hh)
        simp [hy, hq]

theorem lastWith_cons_some {γ : Type} (p : γ → Prop) [DecidablePred p] {x : γ} {xs : List γ}
    {y : γ} (h : lastWith p xs = some y) : lastWith p (x :: xs) = some y := by
  simp [lastWith, h]

theorem lastWith_cons_none {γ : Type} (p : γ → Prop) [DecidablePred p] {x : γ} {xs : List γ}
    (h : lastWith p xs = none) : lastWith p (x :: xs) = if p x then some x else none := by
  simp [lastWith, h]

theorem keysAfter_nodup {γ : Type} [DecidableEq γ] (vs ks : List γ) (h : ks.Nodup) :
    (keysAfter ks vs).Nodup := by
  induction vs generalizing ks with
  | nil => simpa [keysAfter]
  | cons v vs ih =>
    simp only [keysAfter]
    by_cases hv : v ∈ ks
    · simp [hv]; exact ih ks h
    · simp [hv]
      exact ih _ (by simp [List.nodup_append, h, hv])

theorem mem_keysAfter {γ : Type} [DecidableEq γ] (vs ks : List γ) (x : γ) :
    x ∈ keysAfter ks vs ↔ x ∈ ks ∨ x ∈ vs := by
  induction vs generalizing ks with
  | nil => simp [keysAfter]
  | cons v vs ih =>
    simp only [keysAfter]
    by_cases hv : v ∈ ks
    · by_cases hx : x = v
      · subst hx; simp [hv, ih, hv]
      · simp [hv, ih, hx]
    · simp only [hv, if_false, ih, List.mem_append, List.mem_singleton, List.mem_cons]
      tauto

theorem keysAfter_of_nodup {γ : Type} [DecidableEq γ] (vs ks : List γ)
    (hnd : vs.Nodup) (hdisj : ∀ v ∈ vs, v ∉ ks) : keysAfter ks vs = ks ++ vs := by
  induction vs generalizing ks with
  | nil => simp [keysAfter]
  | cons v vs ih =>
    simp only [keysAfter]
    have hv : v ∉ ks := hdisj v (List.mem_cons_self _ _)
    simp only [hv, if_false]
    have hd2 : ∀ w ∈ vs, w ∉ ks ++ [v] := by
      intro w hw hmem
      rcases List.mem_append.mp hmem with h | h
      · exact hdisj w (List.mem_cons_of_mem _ hw) h
      · rw [List.mem_singleton] at h
        subst h
        exact (List.nodup_cons.mp hnd).1 hw
    rw [ih _ (List.Nodup.of_cons hnd) hd2]
    simp

theorem keysAfter_length_le {γ : Type} [DecidableEq γ] (vs ks : List γ) :
    (keysAfter ks vs).length ≤ ks.length + vs.length := by
  induction vs generalizing ks with
  | nil => simp [keysAfter]
  | cons w ws ih =>
    simp only [keysAfter]
    by_cases hw : w ∈ ks
    · simp only [hw, if_true]
      calc (keysAfter ks ws).length ≤ ks.length + ws.length := ih ks
      _ ≤ ks.length + (ws.length + 1) := by omega
    · simp only [hw, if_false]
      calc (keysAfter (ks ++ [w]) ws).length ≤ (ks ++ [w]).length + ws.length := ih _
      _ = ks.length + (ws.length + 1) := by simp; omega

theorem keysAfter_length_lt {γ : Type} [DecidableEq γ] (vs ks : List γ)
    (h : (∃ v ∈ vs, v ∈ ks) ∨ ¬ vs.Nodup) :
    (keysAfter ks vs).length < ks.length + vs.length := by
  induction vs generalizing ks with
  | nil =>
    rcases h with ⟨v, hv, _⟩ | h
    · simp at hv
    · simp [List.nodup_nil] at h
  | cons v vs ih =>
    simp only [keysAfter]
    by_cases hv : v ∈ ks
    · simp only [hv, if_true]
      calc (keysAfter ks vs).length ≤ ks.length + vs.length := keysAfter_length_le vs ks
      _ < ks.length + (vs.length + 1) := by omega
    · simp only [hv, if_false]
      have hnext : (∃ w ∈ vs, w ∈ ks ++ [v]) ∨ ¬ vs.Nodup := by
        rcases h with ⟨w, hw, hwk⟩ | h
        · rcases List.mem_cons.mp hw with rfl | hw2
          · exact absurd hwk hv
          · exact Or.inl ⟨w, hw2, by simp [hwk]⟩
        · rw [List.nodup_cons] at h
          push_neg at h
          by_cases hvv : v ∈ vs
          · exact Or.inl ⟨v, hvv, by simp⟩
          · exact Or.inr (h hvv)
      calc (keysAfter (ks ++ [v]) vs).length < (ks ++ [v]).length + vs.length := ih _ hnext
      _ = ks.length + (vs.length + 1) := by simp; omega

/-- Reconstruction: a dict with `Nodup` key list `ks` whose lookups agree with
`g` is exactly `ks.map (fun k => (k, g k))`. -/
theorem dict_eq_map_of_lookup {κ β : Type} [DecidableEq κ] (m : PyDict κ β) (ks : List κ)
    (g : κ → β) (hks : m.map Prod.fst = ks) (hnd : ks.Nodup)
    (hg : ∀ k ∈ ks, dictLookup k m = some (g k)) :
    m = ks.map (fun k => (k, g k)) := by
  induction m generalizing ks with
  | nil =>
    simp at hks
    subst hks
    rfl
  | cons p rest ih =>
    cases ks with
    | nil => simp at hks
    | cons k0 ks2 =>
      simp only [List.map_cons, List.cons.injEq] at hks
      obtain ⟨hk0, hrest⟩ := hks
      have hg0 := hg k0 (List.mem_cons_self _ _)
      rw [show dictLookup k0 (p :: rest) = some p.2 by simp [dictLookup, hk0]] at hg0
      have hp2 : p.2 = g k0 := by simpa using hg0
      have ihr : rest = ks2.map (fun k => (k, g k)) := by
        refine ih ks2 hrest (List.Nodup.of_cons hnd) ?_
        intro k hk
        have := hg k (List.mem_cons_of_mem _ hk)
        have hne : ¬ p.1 = k := by
          rw [hk0]
          intro hh
          subst hh
          exact (List.nodup_cons.mp hnd).1 hk
        rwa [show dictLookup k (p :: rest) = dictLookup k rest by simp [dictLookup, hne]] at this
      cases p
      simp only [List.map_cons, List.cons.injEq]
      refine ⟨?_, ihr⟩
      simp at hk0 hp2
      simp [hk0, hp2]

/-!
## `join_dictionaries` (utilities.py, lines 17-37)

The source builds `pairs_to_join`, a dict from join-key value to a pair
`[dictionary_1, None]`, fills the second slot from `dictionaries_2`, and
finally merges each pair with `dict(d1.items() + d2.items())`.
-/

/-- First phase of `join_dictionaries`: the dict comprehension
`{d[join_key]: [d, None] for d in dictionaries_1}` (written as a recursion
over the remaining records with the dict built so far as accumulator).
`none` models the `KeyError` raised when a record lacks the join key. -/
def buildPairs {α : Type} [DecidableEq α] (jk : String) :
    List (URec α) → PyDict α (URec α × Option (URec α)) →
    Option (PyDict α (URec α × Option (URec α)))
  | [], m => some m
  | d :: ds, m =>
    match dictLookup jk d with
    | none => none
    | some v => buildPairs jk ds (insertPair m v (d, none))

/-- Second phase: `for d in dictionaries_2: if d[join_key] in pairs_to_join:
pairs_to_join[d[join_key]][1] = d`. -/
def fillPairs {α : Type} [DecidableEq α] (jk : String) :
    List (URec α) → PyDict α (URec α × Option (URec α)) →
    Option (PyDict α (URec α × Option (URec α)))
  | [], m => some m
  | d :: ds, m =>
    match dictLookup jk d with
    | none => none
    | some v =>
      match dictLookup v m with
      | none => fillPairs jk ds m
      | some pr => fillPairs jk ds (insertPair m v (pr.1, some d))

/-- Python `dict(d1.items() + d2.items())`: insert all of `d1`'s pairs and
then all of `d2`'s pairs into a fresh dict (so `d2` wins on key conflicts). -/
def mergeDicts {κ β : Type} [DecidableEq κ] (d1 d2 : PyDict κ β) : PyDict κ β :=
  (d1 ++ d2).foldl (fun m p => insertPair m p.1 p.2) []

/-- Final phase: `for d1, d2 in pairs_to_join.itervalues(): ... dict(d1.items()
+ d2.items())`.  A pair whose second slot is still `None` makes the source
crash (`None` has no `items`), modelled by `none`.  NOTE: this recursion
walks the accumulated entries in their list (insertion) order, but Python 2's
`itervalues()` order is unspecified (CPython 2 hash order); accordingly, no
theorem in this file asserts anything about the POSITION of a record in the
join's output — only its length, its members, and the output's permutation
class, all of which are invariant under the iteration order. -/
def mergeAllPairs {α : Type} [DecidableEq α] :
    PyDict α (URec α × Option (URec α)) → Option (List (URec α))
  | [] => some []
  | (_, (_, none)) :: _ => none
  | (_, (d1, some d2)) :: rest => (mergeAllPairs rest).map (mergeDicts d1 d2 :: ·)

/-- `join_dictionaries(dictionaries_1, dictionaries_2, join_key)` from
utilities.py. -/
def join_dictionaries {α : Type} [DecidableEq α] (ds1 ds2 : List (URec α)) (jk : String) :
    Option (List (URec α)) :=
  match buildPairs jk ds1 [] with
  | none => none
  | some m =>
    match fillPairs jk ds2 m with
    | none => none
    | some m2 => mergeAllPairs m2

/-- The join-key values of a record list, in order. -/
def joinKeyVals {α : Type} [DecidableEq α] (jk : String) (ds : List (URec α)) : List α :=
  ds.filterMap (fun d => dictLookup jk d)

/-- The last record of `ds` whose join-key value is `v`. -/
def lastKeyed {α : Type} [DecidableEq α] (jk : String) (v : α) (ds : List (URec α)) :
    Option (URec α) :=
  lastWith (fun d => dictLookup jk d = some v) ds

/-- `lastKeyed` with the empty record as default. -/
def lastKeyedD {α : Type} [DecidableEq α] (jk : String) (v : α) (ds : List (URec α)) :
    URec α :=
  (lastKeyed jk v ds).getD []

/-- Statement-side description of one joined record: the record of
`dictionaries_1` merged with the last matching record of `dictionaries_2`
(whose fields win on conflict). -/
def specJoinedRecord {α : Type} [DecidableEq α] (jk : String) (ds2 : List (URec α))
    (d : URec α) : URec α :=
  match dictLookup jk d with
  | none => []
  | some v =>
    match lastKeyed jk v ds2 with
    | none => []
    | some b => mergeDicts d b

theorem buildPairs_char {α : Type} [DecidableEq α] (jk : String) (ds : List (URec α))
    (m : PyDict α (URec α × Option (URec α)))
    (h : ∀ d ∈ ds, (dictLookup jk d).isSome) :
    ∃ m2, buildPairs jk ds m = some m2 ∧
      m2.map Prod.fst = keysAfter (m.map Prod.fst) (joinKeyVals jk ds) ∧
      ∀ v, dictLookup v m2 =
        match lastKeyed jk v ds with
        | some d => some (d, none)
        | none => dictLookup v m := by
  induction ds generalizing m with
  | nil =>
    refine ⟨m, rfl, by simp [joinKeyVals, keysAfter], ?_⟩
    intro v
    simp [lastKeyed, lastWith]
  | cons d ds ih =>
    have hd := h d (List.mem_cons_self _ _)
    cases hjk : dictLookup jk d with
    | none => rw [hjk] at hd; simp at hd
    | some w =>
      obtain ⟨m2, hm2, hkeys, hlook⟩ :=
        ih (insertPair m w (d, none)) (fun x hx => h x (List.mem_cons_of_mem _ hx))
      refine ⟨m2, ?_, ?_, ?_⟩
      · simp only [buildPairs, hjk]
        exact hm2
      · rw [hkeys, map_fst_insertPair]
        have : joinKeyVals jk (d :: ds) = w :: joinKeyVals jk ds := by
          simp [joinKeyVals, hjk]
        rw [this]
        simp [keysAfter]
      · intro v
        rw [hlook v]
        simp only [lastKeyed]
        cases hlast : lastWith (fun r => dictLookup jk r = some v) ds with
        | some y =>
          rw [lastWith_cons_some _ hlast]
        | none =>
          rw [lastWith_cons_none _ hlast, dictLookup_insertPair]
          by_cases hv : v = w
          · subst hv
            simp [hjk]
          · have hnd2 : ¬ dictLookup jk d = some v := by
              rw [hjk]
              simp
              intro hh
              exact absurd hh.symm hv
            simp [hv, hnd2]

theorem fillPairs_char {α : Type} [DecidableEq α] (jk : String) (ds : List (URec α))
    (m : PyDict α (URec α × Option (URec α)))
    (h : ∀ d ∈ ds, (dictLookup jk d).isSome) :
    ∃ m2, fillPairs jk ds m = some m2 ∧
      m2.map Prod.fst = m.map Prod.fst ∧
      ∀ v, dictLookup v m2 =
        (dictLookup v m).map (fun pr =>
          (pr.1, match lastKeyed jk v ds with
                 | some b => some b
                 | none => pr.2)) := by
  induction ds generalizing m with
  | nil =>
    refine ⟨m, rfl, rfl, ?_⟩
    intro v
    simp [lastKeyed, lastWith]
  | cons d ds ih =>
    have hd := h d (List.mem_cons_self _ _)
    cases hjk : dictLookup jk d with
    | none => rw [hjk] at hd; simp at hd
    | some w =>
      cases hw : dictLookup w m with
      | none =>
        obtain ⟨m2, hm2, hkeys, hlook⟩ := ih m (fun x hx => h x (List.mem_cons_of_mem _ hx))
        refine ⟨m2, ?_, hkeys, ?_⟩
        · simp only [fillPairs, hjk, hw]
          exact hm2
        · intro v
          rw [hlook v]
          simp only [lastKeyed]
          cases hlast : lastWith (fun r => dictLookup jk r = some v) ds with
          | some y =>
            rw [lastWith_cons_some _ hlast]
          | none =>
            rw [lastWith_cons_none _ hlast]
            by_cases hv : dictLookup jk d = some v
            · rw [hjk] at hv
              have hwv : w = v := by simpa using hv
              subst hwv
              simp [hw]
            · simp [hv]
      | some pr =>
        obtain ⟨m2, hm2, hkeys, hlook⟩ :=
          ih (insertPair m w (pr.1, some d)) (fun x hx => h x (List.mem_cons_of_mem _ hx))
        refine ⟨m2, ?_, ?_, ?_⟩
        · simp only [fillPairs, hjk, hw]
          exact hm2
        · rw [hkeys, map_fst_insertPair]
          have : w ∈ m.map Prod.fst := by
            by_contra hc
            rw [← dictLookup_eq_none_iff] at hc
            rw [hc] at hw
            exact Option.noConfusion hw
          simp [this]
        · intro v
          rw [hlook v, dictLookup_insertPair]
          simp only [lastKeyed]
          by_cases hv : v = w
          · subst hv
            simp only [if_pos rfl, hw, Option.map_some]
            cases hlast : lastWith (fun r => dictLookup jk r = some v) ds with
            | some y =>
              rw [lastWith_cons_some _ hlast]
              simp
            | none =>
              rw [lastWith_cons_none _ hlast, hjk]
              simp
          · simp only [if_neg hv]
            cases hlast : lastWith (fun r => dictLookup jk r = some v) ds with
            | some y =>
              rw [lastWith_cons_some _ hlast]
            | none =>
              have hnd2 : ¬ dictLookup jk d = some v := by
                rw [hjk]
                simp
                intro hh
                exact absurd hh.symm hv
              rw [lastWith_cons_none _ hlast]
              simp [hnd2]

theorem mergeAllPairs_map {α : Type} [DecidableEq α] (ks : List α)
    (gA : α → URec α) (gB : α → Option (URec α)) (h : ∀ v ∈ ks, (gB v).isSome) :
    mergeAllPairs (ks.map (fun v => (v, (gA v, gB v)))) =
      some (ks.map (fun v => mergeDicts (gA v) ((gB v).getD []))) := by
  induction ks with
  | nil => rfl
  | cons v ks ih =>
    have hv := h v (List.mem_cons_self _ _)
    cases hb : gB v with
    | none => rw [hb] at hv; simp at hv
    | some b =>
      simp only [List.map_cons, hb]
      rw [show mergeAllPairs ((v, (gA v, some b)) :: ks.map (fun v => (v, (gA v, gB v)))) =
        (mergeAllPairs (ks.map (fun v => (v, (gA v, gB v))))).map (mergeDicts (gA v) b :: ·)
        from rfl]
      rw [ih (fun x hx => h x (List.mem_cons_of_mem _ hx))]
      simp

theorem lastWith_eq_none_of_forall {γ : Type} (p : γ → Prop) [DecidablePred p] {l : List γ}
    (h : ∀ x ∈ l, ¬ p x) : lastWith p l = none := by
  induction l with
  | nil => rfl
  | cons y ys ih =>
    rw [lastWith_cons_none _ (ih (fun x hx => h x (List.mem_cons_of_mem _ hx)))]
    simp [h y (List.mem_cons_self _ _)]

theorem joinKeyVals_eq_map {α : Type} [DecidableEq α] (jk : String) (ds : List (URec α))
    (f : URec α → α) (hf : ∀ d ∈ ds, dictLookup jk d = some (f d)) :
    joinKeyVals jk ds = ds.map f := by
  induction ds with
  | nil => rfl
  | cons d ds ih =>
    have hd := hf d (List.mem_cons_self _ _)
    simp only [joinKeyVals, List.filterMap_cons, hd, List.map_cons]
    rw [show List.filterMap (fun d => dictLookup jk d) ds = joinKeyVals jk ds from rfl]
    rw [ih (fun x hx => hf x (List.mem_cons_of_mem _ hx))]

theorem lastKeyed_self {α : Type} [DecidableEq α] (jk : String) (ds : List (URec α))
    (f : URec α → α) (hf : ∀ d ∈ ds, dictLookup jk d = some (f d))
    (hnd : (ds.map f).Nodup) {d : URec α} (hd : d ∈ ds) :
    lastKeyed jk (f d) ds = some d := by
  induction ds with
  | nil => simp at hd
  | cons e es ih =>
    have hnd2 : (es.map f).Nodup := (List.nodup_cons.mp (by simpa using hnd)).2
    have hfe : f e ∉ es.map f := (List.nodup_cons.mp (by simpa using hnd)).1
    rcases List.mem_cons.mp hd with rfl | hmem
    · have hnone : lastKeyed jk (f d) es = none := by
        apply lastWith_eq_none_of_forall
        intro r hr hpr
        have := hf r (List.mem_cons_of_mem _ hr)
        rw [this] at hpr
        have : f r = f d := by simpa using hpr
        exact hfe (this ▸ List.mem_map_of_mem f hr)
      rw [lastKeyed, lastWith_cons_none _ hnone]
      simp [hf d (List.mem_cons_self _ _)]
    · have := ih (fun x hx => hf x (List.mem_cons_of_mem _ hx)) hnd2 hmem
      rw [lastKeyed, lastWith_cons_some _ this]

/-- Full characterisation of `join_dictionaries`: when every record of both
lists carries the join key and `dictionaries_2` covers every join-key value of
`dictionaries_1`, the result collapses `dictionaries_1` to one entry per
distinct join-key value (first-occurrence order), each entry merging the last
record of `dictionaries_1` with that value and the last matching record of
`dictionaries_2`. -/
theorem join_dictionaries_char {α : Type} [DecidableEq α] (ds1 ds2 : List (URec α))
    (jk : String)
    (h1 : ∀ d ∈ ds1, (dictLookup jk d).isSome)
    (h2 : ∀ d ∈ ds2, (dictLookup jk d).isSome)
    (hcov : ∀ v ∈ joinKeyVals jk ds1, ∃ b ∈ ds2, dictLookup jk b = some v) :
    join_dictionaries ds1 ds2 jk =
      some ((keysAfter [] (joinKeyVals jk ds1)).map
        (fun v => mergeDicts (lastKeyedD jk v ds1) (lastKeyedD jk v ds2))) := by
  obtain ⟨m0, hm0, hkeys0, hlook0⟩ := buildPairs_char jk ds1 [] h1
  obtain ⟨m1, hm1, hkeys1, hlook1⟩ := fillPairs_char jk ds2 m0 h2
  have hks : m1.map Prod.fst = keysAfter [] (joinKeyVals jk ds1) := by
    rw [hkeys1, hkeys0]
    rfl
  have hnd : (keysAfter [] (joinKeyVals jk ds1)).Nodup :=
    keysAfter_nodup _ _ List.nodup_nil
  have hmemvals : ∀ v ∈ keysAfter [] (joinKeyVals jk ds1), v ∈ joinKeyVals jk ds1 := by
    intro v hv
    rcases (mem_keysAfter _ _ _).mp hv with h | h
    · simp at h
    · exact h
  have hBsome : ∀ v ∈ keysAfter [] (joinKeyVals jk ds1), (lastKeyed jk v ds2).isSome := by
    intro v hv
    obtain ⟨b, hb, hlkb⟩ := hcov v (hmemvals v hv)
    exact lastWith_isSome _ hb hlkb
  have hg : ∀ v ∈ keysAfter [] (joinKeyVals jk ds1),
      dictLookup v m1 = some (lastKeyedD jk v ds1, lastKeyed jk v ds2) := by
    intro v hv
    obtain ⟨dA, hdA, hlkA⟩ := List.mem_filterMap.mp (hmemvals v hv)
    have hA : (lastKeyed jk v ds1).isSome := lastWith_isSome _ hdA hlkA
    obtain ⟨dA0, hdA0⟩ := Option.isSome_iff_exists.mp hA
    obtain ⟨b0, hb0⟩ := Option.isSome_iff_exists.mp (hBsome v hv)
    have hm0v : dictLookup v m0 = some (dA0, none) := by
      rw [hlook0 v]
      rw [show lastKeyed jk v ds1 = some dA0 from hdA0]
    have hm1v : dictLookup v m1 = some (dA0, some b0) := by
      rw [hlook1 v, hm0v]
      rw [show lastKeyed jk v ds2 = some b0 from hb0]
      rfl
    rw [hm1v, show lastKeyed jk v ds2 = some b0 from hb0]
    have : lastKeyedD jk v ds1 = dA0 := by
      rw [lastKeyedD, hdA0]
      rfl
    rw [this]
  have hrec : m1 = (keysAfter [] (joinKeyVals jk ds1)).map
      (fun v => (v, (lastKeyedD jk v ds1, lastKeyed jk v ds2))) :=
    dict_eq_map_of_lookup m1 _ _ hks hnd hg
  have hmerge := mergeAllPairs_map (keysAfter [] (joinKeyVals jk ds1))
      (fun v => lastKeyedD jk v ds1) (fun v => lastKeyed jk v ds2) hBsome
  simp only [join_dictionaries, hm0, hm1]
  rw [hrec, hmerge]
  rfl

/-- `join_dictionaries` in the well-formed case: the join-key values of
`dictionaries_1` are pairwise distinct (`f` reads off each record's join-key
value), so the result is exactly `dictionaries_1` mapped to its joined
records, in order. -/
theorem join_nodup_char {α : Type} [DecidableEq α] (ds1 ds2 : List (URec α)) (jk : String)
    (f : URec α → α)
    (hf : ∀ d ∈ ds1, dictLookup jk d = some (f d))
    (hnd : (ds1.map f).Nodup)
    (h2 : ∀ d ∈ ds2, (dictLookup jk d).isSome)
    (hcov : ∀ d ∈ ds1, ∃ b ∈ ds2, dictLookup jk b = some (f d)) :
    join_dictionaries ds1 ds2 jk = some (ds1.map (specJoinedRecord jk ds2)) := by
  have h1 : ∀ d ∈ ds1, (dictLookup jk d).isSome := by
    intro d hd
    rw [hf d hd]
    rfl
  have hvals : joinKeyVals jk ds1 = ds1.map f := joinKeyVals_eq_map jk ds1 f hf
  have hcov2 : ∀ v ∈ joinKeyVals jk ds1, ∃ b ∈ ds2, dictLookup jk b = some v := by
    intro v hv
    rw [hvals] at hv
    obtain ⟨d, hd, rfl⟩ := List.mem_map.mp hv
    exact hcov d hd
  rw [join_dictionaries_char ds1 ds2 jk h1 h2 hcov2]
  have hka : keysAfter ([] : List α) (joinKeyVals jk ds1) = ds1.map f := by
    rw [hvals, keysAfter_of_nodup _ _ hnd (by intro v hv; simp)]
    rfl
  rw [hka, List.map_map]
  refine congrArg some (List.map_congr_left ?_)
  intro d hd
  obtain ⟨b, hbmem, hblk⟩ := hcov d hd
  obtain ⟨b0, hb0⟩ := Option.isSome_iff_exists.mp
    (lastWith_isSome (fun r => dictLookup jk r = some (f d)) hbmem hblk)
  have hb0k : lastKeyed jk (f d) ds2 = some b0 := hb0
  have hA : lastKeyed jk (f d) ds1 = some d := lastKeyed_self jk ds1 f hf hnd hd
  simp only [Function.comp]
  rw [show lastKeyedD jk (f d) ds1 = d from by rw [lastKeyedD, hA]; rfl]
  rw [show lastKeyedD jk (f d) ds2 = b0 from by rw [lastKeyedD, hb0k]; rfl]
  simp [specJoinedRecord, hf d hd, hb0k]

theorem joinKeyVals_length {α : Type} [DecidableEq α] (jk : String) (ds : List (URec α))
    (h : ∀ d ∈ ds, (dictLookup jk d).isSome) :
    (joinKeyVals jk ds).length = ds.length := by
  induction ds with
  | nil => rfl
  | cons d rest ih =>
    have hd := h d (List.mem_cons_self _ _)
    obtain ⟨v, hv⟩ := Option.isSome_iff_exists.mp hd
    simp only [joinKeyVals, List.filterMap_cons, hv]
    rw [show List.filterMap (fun d => dictLookup jk d) rest = joinKeyVals jk rest from rfl]
    rw [List.length_cons, ih (fun x hx => h x (List.mem_cons_of_mem _ hx))]
    rfl

theorem lastWith_append {γ : Type} (p : γ → Prop) [DecidablePred p] (xs ys : List γ) :
    lastWith p (xs ++ ys) =
      match lastWith p ys with
      | some y => some y
      | none => lastWith p xs := by
  induction xs with
  | nil =>
    simp only [List.nil_append]
    cases lastWith p ys with
    | some y => rfl
    | none => rfl
  | cons x xs ih =>
    cases hys : lastWith p ys with
    | some z =>
      have hin : lastWith p (xs ++ ys) = some z := by
        rw [ih, hys]
      rw [List.cons_append, lastWith_cons_some _ hin]
    | none =>
      have hin : lastWith p (xs ++ ys) = lastWith p xs := by
        rw [ih, hys]
      rw [List.cons_append]
      show lastWith p (x :: (xs ++ ys)) = lastWith p (x :: xs)
      cases hxs : lastWith p xs with
      | some y =>
        rw [lastWith_cons_some _ (by rw [hin, hxs]), lastWith_cons_some _ hxs]
      | none =>
        rw [lastWith_cons_none _ (by rw [hin, hxs]), lastWith_cons_none _ hxs]

theorem dictLookup_of_mem_nodup {κ β : Type} [DecidableEq κ] {d : PyDict κ β} {k : κ} {w : β}
    (hmem : (k, w) ∈ d) (hnd : (d.map Prod.fst).Nodup) : dictLookup k d = some w := by
  induction d with
  | nil => simp at hmem
  | cons q rest ih =>
    rw [List.map_cons, List.nodup_cons] at hnd
    rcases List.mem_cons.mp hmem with rfl | h2
    · simp [dictLookup]
    · have hk : k ∈ rest.map Prod.fst := by
        have := List.mem_map_of_mem Prod.fst h2
        simpa using this
      have hq : ¬ q.1 = k := by
        intro hh
        rw [hh] at hnd
        exact hnd.1 hk
      simp only [dictLookup, hq, if_false]
      exact ih h2 hnd.2

theorem foldl_insertPair_lookup {κ β : Type} [DecidableEq κ] (ps : List (κ × β))
    (m : PyDict κ β) (k : κ) :
    dictLookup k (ps.foldl (fun m p => insertPair m p.1 p.2) m) =
      match lastWith (fun p : κ × β => p.1 = k) ps with
      | some p => some p.2
      | none => dictLookup k m := by
  induction ps generalizing m with
  | nil => rfl
  | cons p rest ih =>
    rw [show (p :: rest).foldl (fun m p => insertPair m p.1 p.2) m =
      rest.foldl (fun m p => insertPair m p.1 p.2) (insertPair m p.1 p.2) from rfl]
    rw [ih]
    cases hlast : lastWith (fun p : κ × β => p.1 = k) rest with
    | some q =>
      rw [lastWith_cons_some _ hlast]
    | none =>
      rw [lastWith_cons_none _ hlast, dictLookup_insertPair]
      by_cases hk : p.1 = k
      · simp [hk]
      · have hk2 : ¬ k = p.1 := fun hh => hk hh.symm
        simp [hk, hk2]

/-- In `dict(d1.items() + d2.items())` the second dict's value wins on any
key it defines (`d2` a genuine dict, so with distinct keys). -/
theorem mergeDicts_right_wins {κ β : Type} [DecidableEq κ] (d1 d2 : PyDict κ β) (k : κ)
    (w : β) (hnd : (d2.map Prod.fst).Nodup) (h : dictLookup k d2 = some w) :
    dictLookup k (mergeDicts d1 d2) = some w := by
  rw [mergeDicts, foldl_insertPair_lookup]
  cases hlast : lastWith (fun p : κ × β => p.1 = k) (d1 ++ d2) with
  | none =>
    have hm := dictLookup_mem h
    have := lastWith_isSome (fun p : κ × β => p.1 = k)
      (List.mem_append_right d1 hm) rfl
    rw [hlast] at this
    simp at this
  | some q =>
    rw [lastWith_append] at hlast
    cases hd2 : lastWith (fun p : κ × β => p.1 = k) d2 with
    | none =>
      have hm := dictLookup_mem h
      have := lastWith_isSome (fun p : κ × β => p.1 = k) hm rfl
      rw [hd2] at this
      simp at this
    | some q2 =>
      rw [hd2] at hlast
      simp only at hlast
      obtain ⟨hq2mem, hq2k⟩ := lastWith_mem _ hd2
      have hq2 : dictLookup k d2 = some q2.2 := by
        apply dictLookup_of_mem_nodup _ hnd
        have : q2 = (k, q2.2) := by
          rw [← hq2k]
        rw [← this]
        exact hq2mem
      rw [hq2] at h
      simp only [Option.some.injEq] at h
      cases hlast
      simp [h]

/-- C1 (amended).  If every record of `records_A` carries the join key with
pairwise-distinct values (`f` reads off each record's join-key value), every
record of `records_B` carries the join key with distinct field names, and
`records_B` covers every join-key value of `records_A`, then `join` returns
one output record per record of `records_A`, and for each record of
`records_A` the output contains the merge of that record with the last
matching record of `records_B`, in which `records_B`'s field values win on
every key `records_B` defines.  No position in the output is asserted: the
output order comes from a Python 2 dict iteration, which is unspecified. -/
theorem C1_join_merges_each_record {α : Type} [DecidableEq α] (ds1 ds2 : List (URec α))
    (jk : String) (f : URec α → α)
    (hf : ∀ d ∈ ds1, dictLookup jk d = some (f d))
    (hnd : (ds1.map f).Nodup)
    (h2 : ∀ d ∈ ds2, (dictLookup jk d).isSome)
    (hndB : ∀ b ∈ ds2, (b.map Prod.fst).Nodup)
    (hcov : ∀ d ∈ ds1, ∃ b ∈ ds2, dictLookup jk b = some (f d)) :
    ∃ l, join_dictionaries ds1 ds2 jk = some l ∧ l.length = ds1.length ∧
      ∀ d ∈ ds1, ∃ b, b ∈ ds2 ∧ dictLookup jk b = dictLookup jk d ∧
        lastKeyed jk (f d) ds2 = some b ∧
        mergeDicts d b ∈ l ∧
        ∀ k w, dictLookup k b = some w → dictLookup k (mergeDicts d b) = some w := by
  have hj := join_nodup_char ds1 ds2 jk f hf hnd h2 hcov
  refine ⟨ds1.map (specJoinedRecord jk ds2), hj, by simp, ?_⟩
  intro d hd
  obtain ⟨b, hbmem, hblk⟩ := hcov d hd
  obtain ⟨b0, hb0⟩ := Option.isSome_iff_exists.mp
    (lastWith_isSome (fun r => dictLookup jk r = some (f d)) hbmem hblk)
  have hb0k : lastKeyed jk (f d) ds2 = some b0 := hb0
  have hb0mem : b0 ∈ ds2 := (lastWith_mem _ hb0).1
  have hspec : specJoinedRecord jk ds2 d = mergeDicts d b0 := by
    simp [specJoinedRecord, hf d hd, hb0k]
  refine ⟨b0, hb0mem, ?_, hb0k, ?_, ?_⟩
  · rw [(lastWith_mem _ hb0).2, hf d hd]
  · rw [← hspec]
    exact List.mem_map_of_mem _ hd
  · intro k w hw
    exact mergeDicts_right_wins d b0 k w (hndB b0 hb0mem) hw

/-- C1 witness at the spec example: `join([{id:1, x:10}], [{id:1, y:20}], id)`
merges the single pair of records. -/
theorem C1_join_merges_each_record_witness :
    ∃ l, join_dictionaries [[("id", (1 : Int)), ("x", 10)]]
        [[("id", (1 : Int)), ("y", 20)]] ("id") = some l ∧
      l.length = [[("id", (1 : Int)), ("x", 10)]].length ∧
      ∀ d ∈ [[("id", (1 : Int)), ("x", 10)]],
        ∃ b, b ∈ [[("id", (1 : Int)), ("y", 20)]] ∧
          dictLookup ("id") b = dictLookup ("id") d ∧
          lastKeyed ("id") ((fun _ => (1 : Int)) d)
            [[("id", (1 : Int)), ("y", 20)]] = some b ∧
          mergeDicts d b ∈ l ∧
          ∀ k w, dictLookup k b = some w → dictLookup k (mergeDicts d b) = some w :=
  C1_join_merges_each_record [[("id", (1 : Int)), ("x", 10)]]
    [[("id", (1 : Int)), ("y", 20)]] ("id") (fun _ => (1 : Int))
    (by decide) (by decide) (by decide) (by decide) (by decide)

/-- C1 counterexample.  The claim as stated quantifies over all record
collections satisfying only the coverage precondition; with two records of
`records_A` sharing the join-key value 5, the code returns a single record
(the merge of the LAST such record), not one merge per record of
`records_A`. -/
theorem C1_counterexample :
    join_dictionaries [[("id", (1 : Int)), ("g", 5)], [("id", 2), ("g", 5)]]
        [[("g", (5 : Int)), ("y", 20)]] ("g") =
      some [[("id", (2 : Int)), ("g", 5), ("y", 20)]] ∧
    (join_dictionaries [[("id", (1 : Int)), ("g", 5)], [("id", 2), ("g", 5)]]
        [[("g", (5 : Int)), ("y", 20)]] ("g")).map List.length ≠
      some [[("id", (1 : Int)), ("g", 5)], [("id", 2), ("g", 5)]].length := by
  constructor
  · decide
  · decide

/-- C3 (amended).  The code makes no order guarantee: the joined list is
produced by iterating a Python 2 dict (`itervalues()`), whose order is
unspecified — CPython 2 uses hash order, not `records_A`'s order.  What does
hold, under the same well-formedness hypotheses as C1 (distinct join-key
values in `records_A`, both sides carrying the join key, `records_B`
covering `records_A`), is the order-invariant content of the output: it is a
permutation of `records_A`'s joined records, one per record of
`records_A`. -/
theorem C3_join_output_is_permutation {α : Type} [DecidableEq α] (ds1 ds2 : List (URec α))
    (jk : String) (f : URec α → α)
    (hf : ∀ d ∈ ds1, dictLookup jk d = some (f d))
    (hnd : (ds1.map f).Nodup)
    (h2 : ∀ d ∈ ds2, (dictLookup jk d).isSome)
    (hcov : ∀ d ∈ ds1, ∃ b ∈ ds2, dictLookup jk b = some (f d)) :
    ∃ l, join_dictionaries ds1 ds2 jk = some l ∧
      List.Perm l (ds1.map (specJoinedRecord jk ds2)) :=
  ⟨ds1.map (specJoinedRecord jk ds2),
    join_nodup_char ds1 ds2 jk f hf hnd h2 hcov, List.Perm.refl _⟩

/-- C3 witness: two records with distinct join-key values come back as a
permutation of their joined records. -/
theorem C3_join_output_is_permutation_witness :
    ∃ l, join_dictionaries [[("id", (1 : Int))], [("id", 2)]]
        [[("id", (2 : Int)), ("y", 8)], [("id", 1), ("y", 7)]] ("id") = some l ∧
      List.Perm l ([[("id", (1 : Int))], [("id", 2)]].map
        (specJoinedRecord ("id") [[("id", (2 : Int)), ("y", 8)], [("id", 1), ("y", 7)]])) :=
  C3_join_output_is_permutation [[("id", (1 : Int))], [("id", 2)]]
    [[("id", (2 : Int)), ("y", 8)], [("id", 1), ("y", 7)]] ("id")
    (fun d => (dictLookup ("id") d).getD 0)
    (by decide) (by decide) (by decide) (by decide)

/-- C3 counterexample.  `records_A` has records with join-key values
`[1, 2, 1]` (ids 1, 2, 3); the two surviving joined records cannot be "in
the same order as the records of records_A": in this model's concrete dict
order the output lists id 3 before id 2 (the duplicated value keeps its
first-occurrence position while taking the last record), and CPython 2's own
unspecified hash order equally provides no records_A-order guarantee. -/
theorem C3_counterexample :
    join_dictionaries
        [[("id", (1 : Int)), ("g", 1)], [("id", 2), ("g", 2)], [("id", 3), ("g", 1)]]
        [[("g", (1 : Int)), ("y", 7)], [("g", 2), ("y", 8)]] ("g") =
      some [[("id", (3 : Int)), ("g", 1), ("y", 7)], [("id", 2), ("g", 2), ("y", 8)]] ∧
    [[("id", (3 : Int)), ("g", 1), ("y", 7)],
     [("id", 2), ("g", 2), ("y", 8)]].map (dictLookup ("id")) = [some (3 : Int), some 2] := by
  constructor
  · decide
  · decide

/-- C9.  With every record of both lists carrying the join key and
`records_B` covering `records_A`, duplicate join-key values in `records_A`
are silently collapsed: the output has one record per distinct join-key
value (strictly fewer than `records_A` when duplicates exist), and the
record kept for each value merges the LAST record of `records_A` with that
value with the last matching record of `records_B`. -/
theorem C9_join_collapses_duplicates {α : Type} [DecidableEq α] (ds1 ds2 : List (URec α))
    (jk : String)
    (h1 : ∀ d ∈ ds1, (dictLookup jk d).isSome)
    (h2 : ∀ d ∈ ds2, (dictLookup jk d).isSome)
    (hcov : ∀ v ∈ joinKeyVals jk ds1, ∃ b ∈ ds2, dictLookup jk b = some v)
    (hdup : ¬ (joinKeyVals jk ds1).Nodup) :
    ∃ l, join_dictionaries ds1 ds2 jk = some l ∧
      l.length = (keysAfter [] (joinKeyVals jk ds1)).length ∧
      l.length < ds1.length ∧
      ∀ v ∈ keysAfter [] (joinKeyVals jk ds1),
        ∃ dA b, lastKeyed jk v ds1 = some dA ∧ lastKeyed jk v ds2 = some b ∧
          mergeDicts dA b ∈ l := by
  have hj := join_dictionaries_char ds1 ds2 jk h1 h2 hcov
  refine ⟨_, hj, by simp, ?_, ?_⟩
  · rw [List.length_map]
    have hlt := keysAfter_length_lt (joinKeyVals jk ds1) [] (Or.inr hdup)
    have hlen := joinKeyVals_length jk ds1 h1
    simp only [List.length_nil, Nat.zero_add] at hlt
    omega
  · intro v hv
    have hv2 : v ∈ joinKeyVals jk ds1 := by
      rcases (mem_keysAfter _ _ _).mp hv with h | h
      · simp at h
      · exact h
    obtain ⟨dA, hdA, hlkA⟩ := List.mem_filterMap.mp hv2
    obtain ⟨dA0, hdA0⟩ := Option.isSome_iff_exists.mp
      (lastWith_isSome (fun r => dictLookup jk r = some v) hdA hlkA)
    obtain ⟨b, hb, hlkb⟩ := hcov v hv2
    obtain ⟨b0, hb0⟩ := Option.isSome_iff_exists.mp
      (lastWith_isSome (fun r => dictLookup jk r = some v) hb hlkb)
    have hdA0k : lastKeyed jk v ds1 = some dA0 := hdA0
    have hb0k : lastKeyed jk v ds2 = some b0 := hb0
    refine ⟨dA0, b0, hdA0k, hb0k, ?_⟩
    have : mergeDicts dA0 b0 =
        mergeDicts (lastKeyedD jk v ds1) (lastKeyedD jk v ds2) := by
      rw [show lastKeyedD jk v ds1 = dA0 from by rw [lastKeyedD, hdA0k]; rfl]
      rw [show lastKeyedD jk v ds2 = b0 from by rw [lastKeyedD, hb0k]; rfl]
    rw [this]
    exact List.mem_map_of_mem _ hv

/-- C9 witness: three records of `records_A`, two sharing join-key value 5,
collapse to two output records. -/
theorem C9_join_collapses_duplicates_witness :
    ∃ l, join_dictionaries
        [[("id", (1 : Int)), ("g", 5)], [("id", 2), ("g", 6)], [("id", 3), ("g", 5)]]
        [[("g", (5 : Int)), ("y", 20)], [("g", 6), ("y", 30)]] ("g") = some l ∧
      l.length = (keysAfter [] (joinKeyVals ("g")
        [[("id", (1 : Int)), ("g", 5)], [("id", 2), ("g", 6)], [("id", 3), ("g", 5)]])).length ∧
      l.length <
        [[("id", (1 : Int)), ("g", 5)], [("id", 2), ("g", 6)], [("id", 3), ("g", 5)]].length ∧
      ∀ v ∈ keysAfter [] (joinKeyVals ("g")
          [[("id", (1 : Int)), ("g", 5)], [("id", 2), ("g", 6)], [("id", 3), ("g", 5)]]),
        ∃ dA b, lastKeyed ("g") v
            [[("id", (1 : Int)), ("g", 5)], [("id", 2), ("g", 6)], [("id", 3), ("g", 5)]] =
            some dA ∧
          lastKeyed ("g") v [[("g", (5 : Int)), ("y", 20)], [("g", 6), ("y", 30)]] = some b ∧
          mergeDicts dA b ∈ l :=
  C9_join_collapses_duplicates
    [[("id", (1 : Int)), ("g", 5)], [("id", 2), ("g", 6)], [("id", 3), ("g", 5)]]
    [[("g", (5 : Int)), ("y", 20)], [("g", 6), ("y", 30)]] ("g")
    (by decide) (by decide) (by decide) (by decide)

/-!
## The attribute I/O layer (data/data_utilities.py)

File tokens and lines are lists of characters.  `pySplit` models Python
`str.split()` with no separator: split on runs of whitespace, dropping
leading and trailing whitespace.  `joinSp` models `' '.join`.
-/

/-- A file token or line: a list of characters. -/
abbrev Tok := List Char

/-- A record with string-valued fields, as read from an attribute table. -/
abbrev RecS := PyDict Tok Tok

/-- A filesystem: a dict from path to file content (list of lines). -/
abbrev FS := PyDict Tok (List Tok)

/-- The whitespace characters of Python `str.split()`. -/
def isPySpace (c : Char) : Bool :=
  c = ' ' || c = '\t' || c = '\n' || c = '\r' || c = '\x0b' || c = '\x0c'

/-- Helper for `pySplit`: `acc` is the current token, reversed. -/
def pySplitAux : List Char → List Char → List Tok
  | [], acc => if acc = [] then [] else [acc.reverse]
  | c :: cs, acc =>
    if isPySpace c then
      if acc = [] then pySplitAux cs [] else acc.reverse :: pySplitAux cs []
    else pySplitAux cs (c :: acc)

/-- Python `line.split()` (no separator argument). -/
def pySplit (line : Tok) : List Tok := pySplitAux line []

/-- A well-formed token: non-empty and free of split whitespace. -/
def wfTok (t : Tok) : Prop := t ≠ [] ∧ ∀ c ∈ t, isPySpace c = false

instance decWfTok (t : Tok) : Decidable (wfTok t) :=
  inferInstanceAs (Decidable (t ≠ [] ∧ ∀ c ∈ t, isPySpace c = false))

/-- Python `' '.join(tokens)`. -/
def joinSp : List Tok → Tok
  | [] => []
  | [t] => t
  | t :: t2 :: ts => t ++ ' ' :: joinSp (t2 :: ts)

theorem pySplitAux_append (t : Tok) (rest : List Char) (acc : List Char)
    (h : ∀ c ∈ t, isPySpace c = false) :
    pySplitAux (t ++ rest) acc = pySplitAux rest (t.reverse ++ acc) := by
  induction t generalizing acc with
  | nil => simp
  | cons c t2 ih =>
    have hc : isPySpace c = false := h c (List.mem_cons_self _ _)
    simp only [List.cons_append, pySplitAux, hc, Bool.false_eq_true, if_false]
    show pySplitAux (t2 ++ rest) (c :: acc) = pySplitAux rest ((c :: t2).reverse ++ acc)
    rw [ih _ (fun x hx => h x (List.mem_cons_of_mem _ hx))]
    simp

theorem pySplitAux_space (rest : List Char) (acc : List Char) (h : acc ≠ []) :
    pySplitAux (' ' :: rest) acc = acc.reverse :: pySplitAux rest [] := by
  have hs : isPySpace ' ' = true := rfl
  simp only [pySplitAux, hs, if_true, h, if_false]

/-- Splitting a space-join of well-formed tokens gives the tokens back. -/
theorem pySplit_joinSp (ts : List Tok) (h : ∀ t ∈ ts, wfTok t) :
    pySplit (joinSp ts) = ts := by
  induction ts with
  | nil => rfl
  | cons t rest ih =>
    obtain ⟨hne, hnospace⟩ := h t (List.mem_cons_self _ _)
    cases rest with
    | nil =>
      show pySplitAux (joinSp [t]) [] = [t]
      rw [show joinSp [t] = t from rfl]
      rw [show (t : List Char) = t ++ [] by simp]
      rw [pySplitAux_append t [] [] hnospace]
      simp [pySplitAux, hne]
    | cons t2 rest2 =>
      show pySplitAux (joinSp (t :: t2 :: rest2)) [] = t :: t2 :: rest2
      rw [show joinSp (t :: t2 :: rest2) = t ++ ' ' :: joinSp (t2 :: rest2) from rfl]
      rw [pySplitAux_append t _ [] hnospace]
      rw [pySplitAux_space _ _ (by simpa using hne)]
      rw [List.reverse_append, List.reverse_reverse]
      simp only [List.reverse_nil, List.nil_append]
      rw [show pySplitAux (joinSp (t2 :: rest2)) [] = pySplit (joinSp (t2 :: rest2)) from rfl]
      rw [ih (fun x hx => h x (List.mem_cons_of_mem _ hx))]

/-- `_raw_data_absolute_path`: resolves a file name under `raw_data/`
(the common `THIS_FILE_PATH` prefix is dropped, being shared by both). -/
def rawPath (name : Tok) : Tok := ("raw_data/").data ++ name

/-- `_processed_data_absolute_path`: resolves a file name under
`processed_data/`. -/
def processedPath (name : Tok) : Tok := ("processed_data/").data ++ name

/-- One output line of `_write_single_user_attribute`:
`user_ID + ' ' + str(attribute)`. -/
def singleLine (p : Tok × Tok) : Tok := p.1 ++ ' ' :: p.2

/-- `_write_single_user_attribute(attribute_for_user, output_file_name)`:
overwrite the processed-data file with one `ID value` line per entry, in the
mapping's iteration order. -/
def write_single_user_attribute (fs : FS) (attribute_for_user : PyDict Tok Tok)
    (name : Tok) : FS :=
  insertPair fs (processedPath name) (attribute_for_user.map singleLine)

/-- Line loop of `_read_single_user_attribute`: each line must split into
exactly two tokens (`user_ID, attribute_value = user_line.split()`), else a
`ValueError` is raised (`none`). -/
def parseSingleLines : List Tok → PyDict Tok Tok → Option (PyDict Tok Tok)
  | [], acc => some acc
  | line :: rest, acc =>
    match pySplit line with
    | [u, v] => parseSingleLines rest (insertPair acc u v)
    | _ => none

/-- `_read_single_user_attribute(input_file_name)`: open the processed-data
file (missing file: `IOError`, `none`) and parse it into a dict. -/
def read_single_user_attribute (fs : FS) (name : Tok) : Option (PyDict Tok Tok) :=
  match dictLookup (processedPath name) fs with
  | none => none
  | some lines => parseSingleLines lines []

theorem parseSingleLines_map (M : PyDict Tok Tok) (acc : PyDict Tok Tok)
    (hnd : (M.map Prod.fst).Nodup)
    (hwf : ∀ p ∈ M, wfTok p.1 ∧ wfTok p.2)
    (hdisj : ∀ p ∈ M, p.1 ∉ acc.map Prod.fst) :
    parseSingleLines (M.map singleLine) acc = some (acc ++ M) := by
  induction M generalizing acc with
  | nil => simp [parseSingleLines]
  | cons p M2 ih =>
    obtain ⟨hwk, hwv⟩ := hwf p (List.mem_cons_self _ _)
    have hsplit : pySplit (singleLine p) = [p.1, p.2] := by
      have : singleLine p = joinSp [p.1, p.2] := rfl
      rw [this, pySplit_joinSp]
      intro t ht
      rcases List.mem_cons.mp ht with rfl | ht2
      · exact hwk
      · rcases List.mem_cons.mp ht2 with rfl | ht3
        · exact hwv
        · simp at ht3
    have hnd0 := hnd
    rw [List.map_cons, List.nodup_cons] at hnd0
    obtain ⟨hp1, hnd2⟩ := hnd0
    have hd2 : ∀ q ∈ M2, q.1 ∉ (acc ++ [p]).map Prod.fst := by
      intro q hq hmem
      rw [List.map_append, List.mem_append] at hmem
      rcases hmem with hmem | hmem
      · exact hdisj q (List.mem_cons_of_mem _ hq) hmem
      · simp only [List.map_cons, List.map_nil, List.mem_singleton] at hmem
        have hq1 : q.1 ∈ M2.map Prod.fst := List.mem_map_of_mem Prod.fst hq
        rw [hmem] at hq1
        exact hp1 hq1
    simp only [List.map_cons, parseSingleLines, hsplit]
    rw [insertPair_of_not_mem acc p.1 p.2 (hdisj p (List.mem_cons_self _ _))]
    rw [show (acc ++ [(p.1, p.2)]) = acc ++ [p] from by simp]
    rw [ih (acc ++ [p]) hnd2 (fun q hq => hwf q (List.mem_cons_of_mem _ hq)) hd2]
    simp

/-- C5 (amended).  For a mapping whose IDs and values are non-empty and
whitespace-free strings (and whose keys are distinct, as in any Python
dict), writing with `_write_single_user_attribute` and reading the same
file name back with `_read_single_user_attribute` reproduces the mapping
exactly. -/
theorem C5_single_attribute_round_trip (fs : FS) (M : PyDict Tok Tok) (name : Tok)
    (hnd : (M.map Prod.fst).Nodup)
    (hwf : ∀ p ∈ M, wfTok p.1 ∧ wfTok p.2) :
    read_single_user_attribute (write_single_user_attribute fs M name) name = some M := by
  simp only [read_single_user_attribute, write_single_user_attribute]
  rw [show dictLookup (processedPath name)
      (insertPair fs (processedPath name) (M.map singleLine)) = some (M.map singleLine)
    from by rw [dictLookup_insertPair]; simp]
  show parseSingleLines (M.map singleLine) [] = some M
  rw [parseSingleLines_map M [] hnd hwf (by simp)]
  simp

/-- C5 witness: a two-entry mapping with plain IDs and values round-trips. -/
theorem C5_single_attribute_round_trip_witness :
    read_single_user_attribute
      (write_single_user_attribute []
        [(("u1").data, ("5").data), (("u2").data, ("7").data)] (("f").data))
      (("f").data) =
    some [(("u1").data, ("5").data), (("u2").data, ("7").data)] :=
  C5_single_attribute_round_trip []
    [(("u1").data, ("5").data), (("u2").data, ("7").data)] (("f").data)
    (by decide) (by decide)

/-- C5 counterexample.  The claim quantifies over every mapping of string
IDs to values; a value containing a space (here `"a b"`) is written as the
line `u a b`, whose `split()` yields three tokens, so reading back fails
with a `ValueError` instead of reproducing the mapping. -/
theorem C5_counterexample :
    read_single_user_attribute
      (write_single_user_attribute [] [(("u").data, ("a b").data)] (("f").data))
      (("f").data) = none := by
  decide

/-- Sequence a fallible map over a list (`none` propagates, as an exception
would). -/
def optMapList {γ δ : Type} (g : γ → Option δ) : List γ → Option (List δ)
  | [] => some []
  | x :: xs =>
    match g x with
    | none => none
    | some y => (optMapList g xs).map (y :: ·)

theorem optMapList_eq_some {γ δ : Type} (g : γ → Option δ) (f : γ → δ) (l : List γ)
    (h : ∀ x ∈ l, g x = some (f x)) : optMapList g l = some (l.map f) := by
  induction l with
  | nil => rfl
  | cons x xs ih =>
    simp only [optMapList, h x (List.mem_cons_self _ _)]
    rw [ih (fun y hy => h y (List.mem_cons_of_mem _ hy))]
    rfl

theorem optMapList_none_of_mem {γ δ : Type} (g : γ → Option δ) {l : List γ} {x : γ}
    (hx : x ∈ l) (h : g x = none) : optMapList g l = none := by
  induction l with
  | nil => simp at hx
  | cons y ys ih =>
    rcases List.mem_cons.mp hx with rfl | hx2
    · simp [optMapList, h]
    · simp only [optMapList]
      cases g y with
      | none => rfl
      | some z => rw [ih hx2]; rfl

theorem optMapList_map {γ δ ε : Type} (g : δ → Option ε) (f : γ → δ) (l : List γ) :
    optMapList g (l.map f) = optMapList (fun x => g (f x)) l := by
  induction l with
  | nil => rfl
  | cons x xs ih => simp only [List.map_cons, optMapList, ih]

/-- Python `enumerate`, starting at `n`. -/
def pyEnum {γ : Type} : Nat → List γ → List (Nat × γ)
  | _, [] => []
  | n, x :: xs => (n, x) :: pyEnum (n + 1) xs

theorem pyEnum_map_snd {γ : Type} (l : List γ) (n : Nat) :
    (pyEnum n l).map Prod.snd = l := by
  induction l generalizing n with
  | nil => rfl
  | cons x xs ih => simp [pyEnum, ih]

theorem pyEnum_mem {γ : Type} {l : List γ} {n : Nat} {pr : Nat × γ}
    (h : pr ∈ pyEnum n l) :
    ∃ j, ∃ hj : j < l.length, pr.1 = n + j ∧ pr.2 = l.get ⟨j, hj⟩ := by
  induction l generalizing n with
  | nil => simp [pyEnum] at h
  | cons x xs ih =>
    rcases List.mem_cons.mp h with rfl | h2
    · exact ⟨0, by simp, by simp, by simp⟩
    · obtain ⟨j, hj, h1, h2⟩ := ih h2
      exact ⟨j + 1, by simpa using hj, by omega, by simpa using h2⟩

theorem pyEnum_get_mem {γ : Type} (l : List γ) (n : Nat) (j : Nat) (hj : j < l.length) :
    (n + j, l.get ⟨j, hj⟩) ∈ pyEnum n l := by
  induction l generalizing n j with
  | nil => simp at hj
  | cons x xs ih =>
    cases j with
    | zero => simp [pyEnum]
    | succ j2 =>
      have := ih (n + 1) j2 (by simpa using Nat.lt_of_succ_lt_succ hj)
      have harith : n + 1 + j2 = n + (j2 + 1) := by omega
      rw [harith] at this
      exact List.mem_cons_of_mem _ (by simpa using this)

/-- The dict comprehension of `_read_multiple_user_attributes`, one header
entry at a time: `{name: vals[i] for i, name in enumerate(header) if name in
attributes_set}`.  A requested column index beyond the row's token count is
an `IndexError` (`none`). -/
def buildRowRec (req : List Tok) (vals : List Tok) :
    List (Nat × Tok) → RecS → Option RecS
  | [], acc => some acc
  | (i, nm) :: rest, acc =>
    if nm ∈ req then
      match vals.get? i with
      | none => none
      | some v => buildRowRec req vals rest (insertPair acc nm v)
    else buildRowRec req vals rest acc

/-- `_read_multiple_user_attributes(input_file_name, attributes)`: read the
header row, then build one record per remaining row.  An empty file yields an
empty header and no users.  The file is looked up under `raw_data/`. -/
def read_multiple_user_attributes (fs : FS) (name : Tok) (req : List Tok) :
    Option (List RecS) :=
  match dictLookup (rawPath name) fs with
  | none => none
  | some lines =>
    match lines with
    | [] => some []
    | hdrLine :: rows =>
      optMapList (fun row => buildRowRec req (pySplit row) (pyEnum 0 (pySplit hdrLine)) []) rows

/-- `_write_multiple_user_attributes(users, attributes, output_file_name)`:
header row of attribute names, then one row of values per user, all joined
by single spaces; a user lacking an attribute raises `KeyError` (`none`).
The file is written under `processed_data/`. -/
def write_multiple_user_attributes (fs : FS) (users : List RecS) (attrs : List Tok)
    (name : Tok) : Option FS :=
  match optMapList (fun u => (optMapList (fun a => dictLookup a u) attrs).map joinSp) users with
  | none => none
  | some rows => some (insertPair fs (processedPath name) (joinSp attrs :: rows))

theorem buildRowRec_char (req : List Tok) (vals : List Tok) (u : RecS)
    (tail : List (Nat × Tok)) (acc : RecS)
    (hv : ∀ pr ∈ tail, pr.2 ∈ req ∧
      ∃ v, vals.get? pr.1 = some v ∧ dictLookup pr.2 u = some v) :
    ∃ acc2, buildRowRec req vals tail acc = some acc2 ∧
      ∀ k, dictLookup k acc2 =
        if k ∈ tail.map Prod.snd then dictLookup k u else dictLookup k acc := by
  induction tail generalizing acc with
  | nil => exact ⟨acc, rfl, by simp⟩
  | cons pr rest ih =>
    obtain ⟨i, nm⟩ := pr
    obtain ⟨hreq, v, hget, hlku⟩ := hv (i, nm) (List.mem_cons_self _ _)
    obtain ⟨acc2, hacc2, hchar⟩ :=
      ih (insertPair acc nm v) (fun q hq => hv q (List.mem_cons_of_mem _ hq))
    refine ⟨acc2, ?_, ?_⟩
    · simp only [buildRowRec, hreq, if_true, hget]
      exact hacc2
    · intro k
      rw [hchar k, dictLookup_insertPair]
      simp only [List.map_cons, List.mem_cons]
      by_cases hk1 : k ∈ rest.map Prod.snd
      · simp [hk1]
      · by_cases hk2 : k = nm
        · subst hk2
          simp [hk1, hlku]
        · simp [hk1, hk2]

/-- The value of attribute `a` in record `u` (empty-string default; only used
where the attribute is known to be present). -/
def vget (u : RecS) (a : Tok) : Tok := (dictLookup a u).getD []

theorem dictLookup_eq_some_vget (u : RecS) (a : Tok) (h : (dictLookup a u).isSome) :
    dictLookup a u = some (vget u a) := by
  cases ho : dictLookup a u with
  | none => rw [ho] at h; simp at h
  | some v => simp [vget, ho]

theorem buildRow_round_trip (attrs : List Tok) (u : RecS)
    (hhas : ∀ a ∈ attrs, (dictLookup a u).isSome)
    (hcover : ∀ p ∈ u, p.1 ∈ attrs) :
    ∃ r, buildRowRec attrs (attrs.map (vget u)) (pyEnum 0 attrs) [] = some r ∧
      ∀ k, dictLookup k r = dictLookup k u := by
  have hv : ∀ pr ∈ pyEnum 0 attrs, pr.2 ∈ attrs ∧
      ∃ v, (attrs.map (vget u)).get? pr.1 = some v ∧ dictLookup pr.2 u = some v := by
    intro pr hpr
    obtain ⟨j, hj, h1, h2⟩ := pyEnum_mem hpr
    have hmem : pr.2 ∈ attrs := by
      rw [h2]
      exact List.get_mem _ _ _
    refine ⟨hmem, vget u pr.2, ?_, dictLookup_eq_some_vget u pr.2 (hhas pr.2 hmem)⟩
    rw [h1, Nat.zero_add, List.get?_map, List.get?_eq_get hj]
    rw [h2]
    rfl
  obtain ⟨r, hr, hchar⟩ := buildRowRec_char attrs (attrs.map (vget u)) u (pyEnum 0 attrs) [] hv
  refine ⟨r, hr, ?_⟩
  intro k
  rw [hchar k, pyEnum_map_snd]
  by_cases hk : k ∈ attrs
  · simp [hk]
  · have hnone : dictLookup k u = none := by
      rw [dictLookup_eq_none_iff]
      intro hmem
      obtain ⟨p, hp, hp2⟩ := List.mem_map.mp hmem
      rw [← hp2] at hk
      exact hk (hcover p hp)
    simp [hk, hnone, dictLookup]

theorem forall₂_map_self {γ δ : Type} (R : γ → δ → Prop) (f : γ → δ) (l : List γ)
    (h : ∀ x ∈ l, R x (f x)) : List.Forall₂ R l (l.map f) := by
  induction l with
  | nil => exact List.Forall₂.nil
  | cons x xs ih =>
    exact List.Forall₂.cons (h x (List.mem_cons_self _ _))
      (ih (fun y hy => h y (List.mem_cons_of_mem _ hy)))

/-- C2 (amended).  `_write_multiple_user_attributes` resolves its file name
under `processed_data/` while `_read_multiple_user_attributes` resolves its
file name under `raw_data/`, so writing then reading the same name does not
read the written file (see the counterexample).  What does hold: writing
succeeds, and reading back the CONTENT that was written (placed where the
reader looks) with the full attribute set reproduces every record
extensionally, provided attribute names and values are non-empty
whitespace-free strings, every record carries every listed attribute and no
others. -/
theorem C2_multi_attribute_round_trip (fs : FS) (users : List RecS) (attrs : List Tok)
    (name name2 : Tok)
    (hattr : ∀ a ∈ attrs, wfTok a)
    (hvals : ∀ u ∈ users, ∀ p ∈ u, wfTok p.2)
    (hhas : ∀ u ∈ users, ∀ a ∈ attrs, (dictLookup a u).isSome)
    (hcover : ∀ u ∈ users, ∀ p ∈ u, p.1 ∈ attrs) :
    ∃ fs2 content us2,
      write_multiple_user_attributes fs users attrs name = some fs2 ∧
      dictLookup (processedPath name) fs2 = some content ∧
      read_multiple_user_attributes (insertPair [] (rawPath name2) content) name2 attrs =
        some us2 ∧
      List.Forall₂ (fun u u2 => ∀ k, dictLookup k u2 = dictLookup k u) users us2 := by
  have hrowfn : ∀ u ∈ users,
      (optMapList (fun a => dictLookup a u) attrs).map joinSp =
        some (joinSp (attrs.map (vget u))) := by
    intro u hu
    rw [optMapList_eq_some (fun a => dictLookup a u) (vget u) attrs
      (fun a ha => dictLookup_eq_some_vget u a (hhas u hu a ha))]
    rfl
  have hrows : optMapList (fun u => (optMapList (fun a => dictLookup a u) attrs).map joinSp)
      users = some (users.map (fun u => joinSp (attrs.map (vget u)))) :=
    optMapList_eq_some _ _ users hrowfn
  have hsplitrow : ∀ u ∈ users, pySplit (joinSp (attrs.map (vget u))) = attrs.map (vget u) := by
    intro u hu
    apply pySplit_joinSp
    intro t ht
    obtain ⟨a, ha, hta⟩ := List.mem_map.mp ht
    have hsome := hhas u hu a ha
    have hlk := dictLookup_eq_some_vget u a hsome
    have hmem : (a, vget u a) ∈ u := dictLookup_mem hlk
    rw [← hta]
    exact hvals u hu (a, vget u a) hmem
  refine ⟨insertPair fs (processedPath name)
      (joinSp attrs :: users.map (fun u => joinSp (attrs.map (vget u)))),
    joinSp attrs :: users.map (fun u => joinSp (attrs.map (vget u))),
    users.map (fun u =>
      (buildRowRec attrs (attrs.map (vget u)) (pyEnum 0 attrs) []).getD []),
    ?_, ?_, ?_, ?_⟩
  · simp only [write_multiple_user_attributes, hrows]
  · rw [dictLookup_insertPair]
    simp
  · simp only [read_multiple_user_attributes]
    rw [show dictLookup (rawPath name2)
        (insertPair ([] : FS) (rawPath name2)
          (joinSp attrs :: users.map (fun u => joinSp (attrs.map (vget u))))) =
        some (joinSp attrs :: users.map (fun u => joinSp (attrs.map (vget u))))
      from by rw [dictLookup_insertPair]; simp]
    simp only [pySplit_joinSp attrs hattr]
    rw [optMapList_map]
    apply optMapList_eq_some
    intro u hu
    rw [hsplitrow u hu]
    obtain ⟨r, hr, _⟩ := buildRow_round_trip attrs u (hhas u hu) (hcover u hu)
    rw [hr]
    simp [hr]
  · apply forall₂_map_self
    intro u hu
    obtain ⟨r, hr, hchar⟩ := buildRow_round_trip attrs u (hhas u hu) (hcover u hu)
    rw [hr]
    intro k
    exact hchar k

/-- C2 witness: one record with two attributes round-trips through the
written content. -/
theorem C2_multi_attribute_round_trip_witness :
    ∃ fs2 content us2,
      write_multiple_user_attributes [] [[(("a").data, ("1").data), (("b").data, ("2").data)]]
        [("a").data, ("b").data] (("f").data) = some fs2 ∧
      dictLookup (processedPath (("f").data)) fs2 = some content ∧
      read_multiple_user_attributes (insertPair [] (rawPath (("f").data)) content)
        (("f").data) [("a").data, ("b").data] = some us2 ∧
      List.Forall₂ (fun u u2 => ∀ k, dictLookup k u2 = dictLookup k u)
        [[(("a").data, ("1").data), (("b").data, ("2").data)]] us2 :=
  C2_multi_attribute_round_trip [] [[(("a").data, ("1").data), (("b").data, ("2").data)]]
    [("a").data, ("b").data] (("f").data) (("f").data)
    (by decide) (by decide) (by decide) (by decide)

/-- C2 counterexample.  Writing succeeds, but reading the SAME file name
back returns an `IOError` (`none`): the writer put the table under
`processed_data/f` while the reader looks under `raw_data/f`. -/
theorem C2_counterexample :
    (write_multiple_user_attributes [] [[(("a").data, ("1").data)]] [("a").data]
      (("f").data)).isSome = true ∧
    (write_multiple_user_attributes [] [[(("a").data, ("1").data)]] [("a").data]
      (("f").data)).bind
      (fun fs2 => read_multiple_user_attributes fs2 (("f").data) [("a").data]) = none := by
  constructor
  · decide
  · decide

theorem buildRowRec_none (req vals : List Tok) (pr : Nat × Tok)
    (hreq : pr.2 ∈ req) (hget : vals.get? pr.1 = none) :
    ∀ tail : List (Nat × Tok), pr ∈ tail → ∀ acc, buildRowRec req vals tail acc = none := by
  intro tail
  induction tail with
  | nil => intro h; simp at h
  | cons q rest ih =>
    intro hpr acc
    obtain ⟨i, nm⟩ := q
    by_cases hq : nm ∈ req
    · simp only [buildRowRec, hq, if_true]
      cases hv : vals.get? i with
      | none => rfl
      | some v =>
        rcases List.mem_cons.mp hpr with rfl | h2
        · rw [hv] at hget
          exact Option.noConfusion hget
        · exact ih h2 _
    · simp only [buildRowRec, hq, if_false]
      rcases List.mem_cons.mp hpr with rfl | h2
      · exact absurd hreq hq
      · exact ih h2 _

/-- C4 (amended).  A data row with fewer tokens than the header makes
`_read_multiple_user_attributes` fail only when some requested attribute
sits at a column index beyond the row — in particular whenever ALL header
attributes are requested (the counterexample shows a subset request
succeeding on a short row). -/
theorem C4_short_row_fails (fs : FS) (name : Tok) (req : List Tok) (hdrLine row : Tok)
    (rows : List Tok)
    (hfile : dictLookup (rawPath name) fs = some (hdrLine :: rows))
    (hrow : row ∈ rows)
    (hshort : (pySplit row).length < (pySplit hdrLine).length)
    (hreq : ∀ nm ∈ pySplit hdrLine, nm ∈ req) :
    read_multiple_user_attributes fs name req = none := by
  simp only [read_multiple_user_attributes, hfile]
  apply optMapList_none_of_mem _ hrow
  have hj : (pySplit hdrLine).length - 1 < (pySplit hdrLine).length := by omega
  have hmem := pyEnum_get_mem (pySplit hdrLine) 0 ((pySplit hdrLine).length - 1) hj
  rw [Nat.zero_add] at hmem
  have hnm : (pySplit hdrLine).get ⟨(pySplit hdrLine).length - 1, hj⟩ ∈ pySplit hdrLine :=
    List.get_mem _ _ _
  have hget : (pySplit row).get? ((pySplit hdrLine).length - 1) = none := by
    rw [List.get?_eq_none]
    omega
  exact buildRowRec_none req (pySplit row)
    ((pySplit hdrLine).length - 1, (pySplit hdrLine).get ⟨(pySplit hdrLine).length - 1, hj⟩)
    (hreq _ hnm) hget _ hmem []

/-- C4 witness: a file whose header has two attributes and whose only data
row has one token fails when both attributes are requested. -/
theorem C4_short_row_fails_witness :
    read_multiple_user_attributes
      [(rawPath (("f").data), [("a b").data, ("1").data])] (("f").data)
      [("a").data, ("b").data] = none :=
  C4_short_row_fails [(rawPath (("f").data), [("a b").data, ("1").data])] (("f").data)
    [("a").data, ("b").data] (("a b").data) (("1").data) [("1").data]
    (by decide) (by decide) (by decide) (by decide)

/-- C4 counterexample.  The claim says a short row fails for EVERY requested
attribute list; requesting only the first column of a two-column header
succeeds on a one-token row, because the reader indexes only requested
columns. -/
theorem C4_counterexample :
    read_multiple_user_attributes
      [(rawPath (("f").data), [("a b").data, ("1").data])] (("f").data) [("a").data] =
      some [[(("a").data, ("1").data)]] := by
  decide

/-!
## `normalize_users` (utilities.py, lines 92-117)

Numeric values are exact rationals.  The source keeps two dicts `max_user`
and `min_user` with identical key sets (both initialised from
`users[0].keys()` and updated under the same condition), modelled here as
one dict to pairs.  The float infinities used as initial extremes act purely
as identity elements for `max`/`min`, modelled by `none`.
-/

/-- A record with rational-valued attributes. -/
abbrev RecQ := PyDict String ℚ

/-- Running (max, min) per attribute; `none` is the `±inf` initial value. -/
abbrev MMQ := PyDict String (Option ℚ × Option ℚ)

/-- `max_user = {attribute: -inf for attribute in users[0].keys()}` (and the
`min_user` twin). -/
def initMM (u0 : RecQ) : MMQ :=
  u0.foldl (fun m p => insertPair m p.1 ((none : Option ℚ), (none : Option ℚ))) []

/-- `max(max_user[attribute], value)` against the `-inf` start. -/
def stepMax : Option ℚ → ℚ → Option ℚ
  | none, v => some v
  | some c, v => some (max c v)

/-- `min(min_user[attribute], value)` against the `inf` start. -/
def stepMin : Option ℚ → ℚ → Option ℚ
  | none, v => some v
  | some c, v => some (min c v)

/-- The extremes-gathering loop (`for user in users: for attribute, value in
user.iteritems(): ...`), written over the flattened pair list.  Looking up an
attribute absent from `users[0]` raises `KeyError` (`none`). -/
def scanPairs (excl : List String) : List (String × ℚ) → MMQ → Option MMQ
  | [], m => some m
  | p :: ps, m =>
    if p.1 ∈ excl then scanPairs excl ps m
    else
      match dictLookup p.1 m with
      | none => none
      | some pr => scanPairs excl ps (insertPair m p.1 (stepMax pr.1 p.2, stepMin pr.2 p.2))

/-- One attribute of the rewrite loop:
`user[attribute] = float(value - min) / (max - min)`; equal extremes raise
`ZeroDivisionError` (`none`). -/
def normPair (m : MMQ) (excl : List String) (p : String × ℚ) : Option (String × ℚ) :=
  if p.1 ∈ excl then some p
  else
    match dictLookup p.1 m with
    | some (some mx, some mn) =>
      if mx = mn then none else some (p.1, (p.2 - mn) / (mx - mn))
    | _ => none

/-- The rewrite loop over one user. -/
def normRecQ (m : MMQ) (excl : List String) (u : RecQ) : Option RecQ :=
  optMapList (normPair m excl) u

/-- `normalize_users(users, excluded_attributes=[])`: gather per-attribute
extremes, then rewrite every non-excluded value to
`(value - min) / (max - min)`.  The empty collection raises `IndexError` at
`users[0]` (`none`). -/
def normalize_users (users : List RecQ) (excl : List String) : Option (List RecQ) :=
  match users with
  | [] => none
  | u0 :: _ =>
    match scanPairs excl users.join (initMM u0) with
    | none => none
    | some m => optMapList (normRecQ m excl) users

/-- All values carried by attribute `k` across the collection, in scan
order. -/
def attrValues (k : String) (users : List RecQ) : List ℚ :=
  ((users.join).filter (fun p => p.1 = k)).map Prod.snd

/-- Maximum of a value list (0 for the empty list, which never arises). -/
def foldMaxD : List ℚ → ℚ
  | [] => 0
  | v :: vs => vs.foldl max v

/-- Minimum of a value list (0 for the empty list, which never arises). -/
def foldMinD : List ℚ → ℚ
  | [] => 0
  | v :: vs => vs.foldl min v

/-- Statement-side description of one normalized record: non-excluded values
are rewritten with the collection-wide min and max of their attribute. -/
def normSpecRec (excl : List String) (users : List RecQ) (u : RecQ) : RecQ :=
  u.map (fun p =>
    if p.1 ∈ excl then p
    else (p.1, (p.2 - foldMinD (attrValues p.1 users)) /
      (foldMaxD (attrValues p.1 users) - foldMinD (attrValues p.1 users))))

theorem initMM_lookup_aux (k : String) (ps : List (String × ℚ)) (m : MMQ) :
    dictLookup k (ps.foldl (fun m p => insertPair m p.1
        ((none : Option ℚ), (none : Option ℚ))) m) =
      if k ∈ ps.map Prod.fst then some (none, none) else dictLookup k m := by
  induction ps generalizing m with
  | nil => simp
  | cons p rest ih =>
    simp only [List.foldl_cons, List.map_cons, List.mem_cons]
    rw [ih]
    by_cases hk1 : k ∈ rest.map Prod.fst
    · simp [hk1]
    · by_cases hk2 : k = p.1
      · subst hk2
        simp [hk1, dictLookup_insertPair]
      · simp [hk1, hk2, dictLookup_insertPair]

theorem initMM_lookup (k : String) (u0 : RecQ) :
    dictLookup k (initMM u0) =
      if k ∈ u0.map Prod.fst then some ((none : Option ℚ), (none : Option ℚ)) else none := by
  rw [initMM, initMM_lookup_aux]
  simp [dictLookup]

theorem scanPairs_isSome (excl : List String) (ps : List (String × ℚ)) (m : MMQ)
    (h : ∀ p ∈ ps, p.1 ∉ excl → (dictLookup p.1 m).isSome) :
    (scanPairs excl ps m).isSome := by
  induction ps generalizing m with
  | nil => simp [scanPairs]
  | cons p rest ih =>
    by_cases hx : p.1 ∈ excl
    · simp only [scanPairs, hx, if_true]
      exact ih m (fun q hq hqx => h q (List.mem_cons_of_mem _ hq) hqx)
    · have hsome := h p (List.mem_cons_self _ _) hx
      obtain ⟨pr, hpr⟩ := Option.isSome_iff_exists.mp hsome
      simp only [scanPairs, hx, if_false, hpr]
      apply ih
      intro q hq hqx
      rw [dictLookup_insertPair]
      by_cases hq1 : q.1 = p.1
      · simp [hq1]
      · simp only [hq1, if_false]
        exact h q (List.mem_cons_of_mem _ hq) hqx

theorem scanPairs_char (excl : List String) (ps : List (String × ℚ)) (m m2 : MMQ)
    (hscan : scanPairs excl ps m = some m2) (k : String) (hk : k ∉ excl) :
    dictLookup k m2 =
      match dictLookup k m with
      | none => none
      | some pr =>
        some (((ps.filter (fun p => p.1 = k)).map Prod.snd).foldl stepMax pr.1,
              ((ps.filter (fun p => p.1 = k)).map Prod.snd).foldl stepMin pr.2) := by
  induction ps generalizing m with
  | nil =>
    obtain rfl : m = m2 := by simpa [scanPairs] using hscan
    cases hm : dictLookup k m with
    | none => simp [hm]
    | some pr => simp [hm]
  | cons p rest ih =>
    by_cases hx : p.1 ∈ excl
    · simp only [scanPairs, hx, if_true] at hscan
      have hne : ¬ p.1 = k := by
        intro hh
        rw [hh] at hx
        exact hk hx
      rw [ih m hscan]
      simp [List.filter_cons, hne]
    · simp only [scanPairs, hx, if_false] at hscan
      cases hpr : dictLookup p.1 m with
      | none => rw [hpr] at hscan; exact Option.noConfusion hscan
      | some pr =>
        rw [hpr] at hscan
        rw [ih _ hscan, dictLookup_insertPair]
        by_cases hkp : k = p.1
        · subst hkp
          simp only [if_pos rfl, hpr]
          simp [List.filter_cons]
        · simp only [hkp, if_false]
          have hne : ¬ p.1 = k := fun hh => hkp hh.symm
          cases hm : dictLookup k m with
          | none => simp
          | some pr2 => simp [List.filter_cons, hne]

theorem foldl_stepMax_some (c : ℚ) (l : List ℚ) :
    l.foldl stepMax (some c) = some (l.foldl max c) := by
  induction l generalizing c with
  | nil => rfl
  | cons v vs ih => simp [stepMax, ih]

theorem foldl_stepMin_some (c : ℚ) (l : List ℚ) :
    l.foldl stepMin (some c) = some (l.foldl min c) := by
  induction l generalizing c with
  | nil => rfl
  | cons v vs ih => simp [stepMin, ih]

theorem foldl_stepMax_none (l : List ℚ) (h : l ≠ []) :
    l.foldl stepMax none = some (foldMaxD l) := by
  cases l with
  | nil => exact absurd rfl h
  | cons v vs =>
    rw [show (v :: vs).foldl stepMax none = vs.foldl stepMax (some v) from rfl]
    rw [foldl_stepMax_some]
    rfl

theorem foldl_stepMin_none (l : List ℚ) (h : l ≠ []) :
    l.foldl stepMin none = some (foldMinD l) := by
  cases l with
  | nil => exact absurd rfl h
  | cons v vs =>
    rw [show (v :: vs).foldl stepMin none = vs.foldl stepMin (some v) from rfl]
    rw [foldl_stepMin_some]
    rfl

theorem foldl_max_const (c : ℚ) (l : List ℚ) (h : ∀ v ∈ l, v = c) :
    l.foldl max c = c := by
  induction l with
  | nil => rfl
  | cons v vs ih =>
    have hv : v = c := h v (List.mem_cons_self _ _)
    subst hv
    rw [show (v :: vs).foldl max v = vs.foldl max (max v v) from rfl]
    rw [max_self]
    exact ih (fun w hw => h w (List.mem_cons_of_mem _ hw))

theorem foldl_min_const (c : ℚ) (l : List ℚ) (h : ∀ v ∈ l, v = c) :
    l.foldl min c = c := by
  induction l with
  | nil => rfl
  | cons v vs ih =>
    have hv : v = c := h v (List.mem_cons_self _ _)
    subst hv
    rw [show (v :: vs).foldl min v = vs.foldl min (min v v) from rfl]
    rw [min_self]
    exact ih (fun w hw => h w (List.mem_cons_of_mem _ hw))

/-- C6.  For a non-empty collection whose records only carry non-excluded
attributes known to the first record, and whose non-excluded attributes are
non-degenerate (collection-wide max ≠ min), `normalize_users` rewrites every
non-excluded value to `(value - min) / (max - min)` and leaves every
excluded attribute unchanged. -/
theorem C6_normalize_min_max (u0 : RecQ) (rest : List RecQ) (excl : List String)
    (huni : ∀ u ∈ u0 :: rest, ∀ p ∈ u, p.1 ∉ excl → p.1 ∈ u0.map Prod.fst)
    (hdeg : ∀ u ∈ u0 :: rest, ∀ p ∈ u, p.1 ∉ excl →
      foldMaxD (attrValues p.1 (u0 :: rest)) ≠ foldMinD (attrValues p.1 (u0 :: rest))) :
    normalize_users (u0 :: rest) excl =
      some ((u0 :: rest).map (normSpecRec excl (u0 :: rest))) := by
  have hsome : (scanPairs excl ((u0 :: rest).join) (initMM u0)).isSome := by
    apply scanPairs_isSome
    intro p hp hpx
    obtain ⟨u, hu, hpu⟩ := List.mem_join.mp hp
    rw [initMM_lookup]
    simp [huni u hu p hpu hpx]
  obtain ⟨m, hm⟩ := Option.isSome_iff_exists.mp hsome
  have hphase2 : optMapList (normRecQ m excl) (u0 :: rest) =
      some ((u0 :: rest).map (normSpecRec excl (u0 :: rest))) := by
    apply optMapList_eq_some
    intro u hu
    have hrec : normRecQ m excl u =
        some (u.map (fun p =>
          if p.1 ∈ excl then p
          else (p.1, (p.2 - foldMinD (attrValues p.1 (u0 :: rest))) /
            (foldMaxD (attrValues p.1 (u0 :: rest)) -
              foldMinD (attrValues p.1 (u0 :: rest)))))) := by
      apply optMapList_eq_some
      intro p hp
      by_cases hx : p.1 ∈ excl
      · simp [normPair, hx]
      · have hchar := scanPairs_char excl ((u0 :: rest).join) (initMM u0) m hm p.1 hx
        have hinit : dictLookup p.1 (initMM u0) =
            some ((none : Option ℚ), (none : Option ℚ)) := by
          rw [initMM_lookup]
          simp [huni u hu p hp hx]
        rw [hinit] at hchar
        have hne : attrValues p.1 (u0 :: rest) ≠ [] := by
          have hj : p ∈ (u0 :: rest).join := List.mem_join.mpr ⟨u, hu, hp⟩
          have hmem : p.2 ∈ attrValues p.1 (u0 :: rest) :=
            List.mem_map_of_mem Prod.snd (List.mem_filter.mpr ⟨hj, by simp⟩)
          intro hnil
          rw [hnil] at hmem
          simp at hmem
        have hlook : dictLookup p.1 m =
            some ((attrValues p.1 (u0 :: rest)).foldl stepMax none,
                  (attrValues p.1 (u0 :: rest)).foldl stepMin none) := by
          rw [hchar]
          rfl
        rw [foldl_stepMax_none _ hne, foldl_stepMin_none _ hne] at hlook
        simp [normPair, hx, hlook, hdeg u hu p hp hx]
    rw [hrec]
    rfl
  rw [show normalize_users (u0 :: rest) excl =
      (match scanPairs excl ((u0 :: rest).join) (initMM u0) with
       | none => none
       | some m => optMapList (normRecQ m excl) (u0 :: rest)) from rfl]
  rw [hm]
  exact hphase2

/-- C6 witness at the spec example: attribute values `[0, 5, 10]` are
rewritten with min 0 and max 10 (so to `[0, 1/2, 1]`). -/
theorem C6_normalize_min_max_witness :
    normalize_users [[("a", (0 : ℚ))], [("a", 5)], [("a", 10)]] [] =
      some ([[("a", (0 : ℚ))], [("a", 5)], [("a", 10)]].map
        (normSpecRec [] [[("a", (0 : ℚ))], [("a", 5)], [("a", 10)]])) :=
  C6_normalize_min_max [("a", (0 : ℚ))] [[("a", 5)], [("a", 10)]] []
    (by decide) (by decide)

/-- C7.  A non-excluded attribute that is constant across the whole
collection (here `a = c` in every record, present in the first record) makes
`normalize_users` fail with a surfaced `ZeroDivisionError` (`none`), never
silently producing `NaN`/`inf` values. -/
theorem C7_normalize_degenerate_fails (u0 : RecQ) (rest : List RecQ) (excl : List String)
    (a : String) (c : ℚ)
    (hexcl : a ∉ excl)
    (hmem : (a, c) ∈ u0)
    (hconst : ∀ u ∈ u0 :: rest, ∀ p ∈ u, p.1 = a → p.2 = c) :
    normalize_users (u0 :: rest) excl = none := by
  cases hscan : scanPairs excl ((u0 :: rest).join) (initMM u0) with
  | none =>
    rw [show normalize_users (u0 :: rest) excl =
        (match scanPairs excl ((u0 :: rest).join) (initMM u0) with
         | none => none
         | some m => optMapList (normRecQ m excl) (u0 :: rest)) from rfl]
    rw [hscan]
  | some m =>
    have hchar := scanPairs_char excl ((u0 :: rest).join) (initMM u0) m hscan a hexcl
    have hainit : dictLookup a (initMM u0) =
        some ((none : Option ℚ), (none : Option ℚ)) := by
      rw [initMM_lookup]
      have : a ∈ u0.map Prod.fst := by
        have := List.mem_map_of_mem Prod.fst hmem
        simpa using this
      simp [this]
    rw [hainit] at hchar
    have hj : (a, c) ∈ (u0 :: rest).join :=
      List.mem_join.mpr ⟨u0, List.mem_cons_self _ _, hmem⟩
    have hcmem : c ∈ attrValues a (u0 :: rest) :=
      List.mem_map_of_mem Prod.snd (List.mem_filter.mpr ⟨hj, by simp⟩)
    have hne : attrValues a (u0 :: rest) ≠ [] := by
      intro hnil
      rw [hnil] at hcmem
      simp at hcmem
    have hall : ∀ v ∈ attrValues a (u0 :: rest), v = c := by
      intro v hv
      obtain ⟨p, hp, hps⟩ := List.mem_map.mp hv
      have hpf := List.mem_filter.mp hp
      obtain ⟨u, hu, hpu⟩ := List.mem_join.mp hpf.1
      have hp1 : p.1 = a := by simpa using hpf.2
      rw [← hps]
      exact hconst u hu p hpu hp1
    have hlook : dictLookup a m =
        some ((attrValues a (u0 :: rest)).foldl stepMax none,
              (attrValues a (u0 :: rest)).foldl stepMin none) := by
      rw [hchar]
      rfl
    have hmaxc : (attrValues a (u0 :: rest)).foldl stepMax none = some c := by
      rw [foldl_stepMax_none _ hne]
      cases hl : attrValues a (u0 :: rest) with
      | nil => exact absurd hl hne
      | cons v vs =>
        rw [hl] at hall
        have hv : v = c := hall v (List.mem_cons_self _ _)
        subst hv
        rw [show foldMaxD (v :: vs) = vs.foldl max v from rfl]
        rw [foldl_max_const v vs (fun w hw => hall w (List.mem_cons_of_mem _ hw))]
    have hminc : (attrValues a (u0 :: rest)).foldl stepMin none = some c := by
      rw [foldl_stepMin_none _ hne]
      cases hl : attrValues a (u0 :: rest) with
      | nil => exact absurd hl hne
      | cons v vs =>
        rw [hl] at hall
        have hv : v = c := hall v (List.mem_cons_self _ _)
        subst hv
        rw [show foldMinD (v :: vs) = vs.foldl min v from rfl]
        rw [foldl_min_const v vs (fun w hw => hall w (List.mem_cons_of_mem _ hw))]
    rw [hmaxc, hminc] at hlook
    have hpair : normPair m excl (a, c) = none := by
      simp [normPair, hexcl, hlook]
    have hrec : normRecQ m excl u0 = none :=
      optMapList_none_of_mem (normPair m excl) hmem hpair
    have hfail : optMapList (normRecQ m excl) (u0 :: rest) = none :=
      optMapList_none_of_mem (normRecQ m excl) (List.mem_cons_self _ _) hrec
    rw [show normalize_users (u0 :: rest) excl =
        (match scanPairs excl ((u0 :: rest).join) (initMM u0) with
         | none => none
         | some m => optMapList (normRecQ m excl) (u0 :: rest)) from rfl]
    rw [hscan]
    exact hfail

/-- C7 witness: attribute `a` is constantly 3 in both records, so
normalization fails, even though attribute `b` is non-degenerate. -/
theorem C7_normalize_degenerate_fails_witness :
    normalize_users [[("a", (3 : ℚ)), ("b", 1)], [("a", 3), ("b", 2)]] [] = none :=
  C7_normalize_degenerate_fails [("a", (3 : ℚ)), ("b", 1)] [[("a", (3 : ℚ)), ("b", 2)]] []
    ("a") 3 (by decide) (by decide) (by decide)

/-- C10.  On the empty collection `normalize_users` fails (the source
unconditionally indexes `users[0]`, an `IndexError`), for every exclusion
list, rather than returning the empty collection. -/
theorem C10_normalize_empty_fails (excl : List String) :
    normalize_users [] excl = none := rfl

/-!
## `stratified_boolean_sample` (utilities.py, lines 70-78)

`random.sample` is external library code driven by ambient process
randomness; it is modelled by an abstract sampler function constrained to
its documented contract (`k` elements drawn without replacement).
-/

/-- `[user for user in users if user[label_name] == target]`; a record
lacking the label raises `KeyError` (`none`). -/
def selectLabel (label : String) (target : ℚ) : List RecQ → Option (List RecQ)
  | [] => some []
  | u :: us =>
    match dictLookup label u with
    | none => none
    | some v =>
      (selectLabel label target us).map (fun rest => if v = target then u :: rest else rest)

/-- `random.sample(population, k)` around an abstract sampler; raises
`ValueError` (`none`) when `k` exceeds the population size. -/
def pySample (sampler : List RecQ → Nat → List RecQ) (pop : List RecQ) (k : Nat) :
    Option (List RecQ) :=
  if k ≤ pop.length then some (sampler pop k) else none

/-- The documented contract of `random.sample`: `k` elements drawn without
replacement from the population. -/
def validSampler (sampler : List RecQ → Nat → List RecQ) : Prop :=
  ∀ pop k, k ≤ pop.length → (sampler pop k).length = k ∧ List.Subperm (sampler pop k) pop

/-- `stratified_boolean_sample(users, label_name='label')`: partition into
positive (`label == 1`) and negative (`label == 0`) records and downsample
the larger class to the smaller class's size. -/
def stratified_boolean_sample (sampler : List RecQ → Nat → List RecQ)
    (users : List RecQ) (label : String) : Option (List RecQ × List RecQ) :=
  match selectLabel label 1 users with
  | none => none
  | some pos =>
    match selectLabel label 0 users with
    | none => none
    | some neg =>
      if pos.length < neg.length then
        (pySample sampler neg pos.length).map (fun s => (pos, s))
      else
        (pySample sampler pos neg.length).map (fun s => (s, neg))

theorem selectLabel_eq (label : String) (t : ℚ) (users : List RecQ)
    (h : ∀ u ∈ users, (dictLookup label u).isSome) :
    selectLabel label t users =
      some (users.filter (fun u => decide (dictLookup label u = some t))) := by
  induction users with
  | nil => rfl
  | cons u us ih =>
    obtain ⟨v, hv⟩ := Option.isSome_iff_exists.mp (h u (List.mem_cons_self _ _))
    simp only [selectLabel, hv]
    rw [ih (fun w hw => h w (List.mem_cons_of_mem _ hw))]
    by_cases hvt : v = t
    · subst hvt
      simp [List.filter_cons, hv]
    · simp [List.filter_cons, hv, hvt]

/-- C8.  For records whose label is 0 or 1 and any sampler satisfying the
`random.sample` contract, `stratified_boolean_sample` returns a pair
(positives, negatives): both lists have the smaller class's size, positives
all carry label 1, negatives all carry label 0, and both are drawn without
replacement from the input. -/
theorem C8_stratified_sample (sampler : List RecQ → Nat → List RecQ)
    (users : List RecQ) (label : String)
    (hs : validSampler sampler)
    (hlab : ∀ u ∈ users, dictLookup label u = some 0 ∨ dictLookup label u = some 1) :
    ∃ P N, stratified_boolean_sample sampler users label = some (P, N) ∧
      P.length =
        min (users.filter (fun u => decide (dictLookup label u = some 1))).length
            (users.filter (fun u => decide (dictLookup label u = some 0))).length ∧
      N.length = P.length ∧
      (∀ r ∈ P, dictLookup label r = some 1) ∧
      (∀ r ∈ N, dictLookup label r = some 0) ∧
      List.Subperm P users ∧ List.Subperm N users := by
  have hisSome : ∀ u ∈ users, (dictLookup label u).isSome := by
    intro u hu
    rcases hlab u hu with h | h <;> simp [h]
  have hpos := selectLabel_eq label 1 users hisSome
  have hneg := selectLabel_eq label 0 users hisSome
  set pos := users.filter (fun u => decide (dictLookup label u = some 1)) with hposd
  set neg := users.filter (fun u => decide (dictLookup label u = some 0)) with hnegd
  have hposmem : ∀ r ∈ pos, dictLookup label r = some 1 := by
    intro r hr
    have := (List.mem_filter.mp hr).2
    simpa using this
  have hnegmem : ∀ r ∈ neg, dictLookup label r = some 0 := by
    intro r hr
    have := (List.mem_filter.mp hr).2
    simpa using this
  have hpossub : List.Subperm pos users := (List.filter_sublist _).subperm
  have hnegsub : List.Subperm neg users := (List.filter_sublist _).subperm
  by_cases hlt : pos.length < neg.length
  · obtain ⟨hslen, hssub⟩ := hs neg pos.length (Nat.le_of_lt hlt)
    refine ⟨pos, sampler neg pos.length, ?_, ?_, hslen, hposmem, ?_, hpossub,
      hssub.trans hnegsub⟩
    · simp only [stratified_boolean_sample, hpos, hneg, ← hposd, ← hnegd, hlt, if_true]
      simp [pySample, Nat.le_of_lt hlt]
    · exact (Nat.min_eq_left (Nat.le_of_lt hlt)).symm
    · intro r hr
      exact hnegmem r (hssub.subset hr)
  · have hge : neg.length ≤ pos.length := Nat.le_of_not_lt hlt
    obtain ⟨hslen, hssub⟩ := hs pos neg.length hge
    refine ⟨sampler pos neg.length, neg, ?_, ?_, by rw [hslen], ?_, hnegmem,
      hssub.trans hpossub, hnegsub⟩
    · simp only [stratified_boolean_sample, hpos, hneg, ← hposd, ← hnegd, hlt, if_false]
      simp [pySample, hge]
    · rw [hslen]
      exact (Nat.min_eq_right hge).symm
    · intro r hr
      exact hposmem r (hssub.subset hr)

/-- The prefix-taking sampler satisfies the `random.sample` contract. -/
theorem takeSampler_valid : validSampler (fun pop k => pop.take k) := by
  intro pop k hk
  constructor
  · simpa using hk
  · exact (List.take_sublist _ _).subperm

/-- C8 witness: 3 positive and 7 negative records yield 3 and 3. -/
theorem C8_stratified_sample_witness :
    ∃ P N, stratified_boolean_sample (fun pop k => pop.take k)
        [[("label", (1 : ℚ))], [("label", 1)], [("label", 1)], [("label", 0)],
         [("label", 0)], [("label", 0)], [("label", 0)], [("label", 0)],
         [("label", 0)], [("label", 0)]] ("label") = some (P, N) ∧
      P.length =
        min ([[("label", (1 : ℚ))], [("label", 1)], [("label", 1)], [("label", 0)],
          [("label", 0)], [("label", 0)], [("label", 0)], [("label", 0)],
          [("label", 0)], [("label", 0)]].filter
            (fun u => decide (dictLookup ("label") u = some 1))).length
          ([[("label", (1 : ℚ))], [("label", 1)], [("label", 1)], [("label", 0)],
            [("label", 0)], [("label", 0)], [("label", 0)], [("label", 0)],
            [("label", 0)], [("label", 0)]].filter
              (fun u => decide (dictLookup ("label") u = some 0))).length ∧
      N.length = P.length ∧
      (∀ r ∈ P, dictLookup ("label") r = some 1) ∧
      (∀ r ∈ N, dictLookup ("label") r = some 0) ∧
      List.Subperm P [[("label", (1 : ℚ))], [("label", 1)], [("label", 1)], [("label", 0)],
        [("label", 0)], [("label", 0)], [("label", 0)], [("label", 0)],
        [("label", 0)], [("label", 0)]] ∧
      List.Subperm N [[("label", (1 : ℚ))], [("label", 1)], [("label", 1)], [("label", 0)],
        [("label", 0)], [("label", 0)], [("label", 0)], [("label", 0)],
        [("label", 0)], [("label", 0)]] :=
  C8_stratified_sample (fun pop k => pop.take k)
    [[("label", (1 : ℚ))], [("label", 1)], [("label", 1)], [("label", 0)],
     [("label", 0)], [("label", 0)], [("label", 0)], [("label", 0)],
     [("label", 0)], [("label", 0)]] ("label")
    takeSampler_valid (by decide)
